import Mathlib

/-!
Verification of `rasa/architecture_prototype/config_to_graph.py`, the
declarative-pipeline-to-task-graph compiler: a shallow embedding of its
data model and compile functions, followed by theorems settling the
spec claims about them.

Conventions of the embedding:
* Python dicts appearing as config entries are association lists
  (`List (String × String)`); `dict.pop` is `dictPop`.
* The compiled schema (task name → task spec) is an insertion-ordered
  association list; `d[k] = v` is `setKey` and `dict.update` /
  `{**a, **b}` are `schemaUpdate` (Python semantics: an existing key is
  overwritten in place, a new key is appended).
* Fallible Python code (KeyError on `pop`, registry lookup failure,
  missing entry in the step-kind table) is rendered in the `Option` monad.
* Python default arguments are passed explicitly at every call site.
* The component/policy registries (`rasa.nlu.registry.get_component_class`
  and `rasa.core.registry.policy_from_module_path`), external
  collaborators, are parameters of the compile functions.
* `f"{a}_{b}"` on a name and an index is `a ++ "_" ++ Nat.repr b`,
  matching Python decimal formatting of the index.
-/

/-- A step kind, one of the three values of the static `meta` table in
`nlu_config_to_train_graph_schema`. -/
inductive StepKind where
  | process
  | train
  | train_process
deriving DecidableEq, Repr

/-- The NLU component classes imported by `config_to_graph.py` and, via
`other`, any further class the external registry may return (such a class
has no entry in the static step-kind table). -/
inductive ComponentClass where
  | WhitespaceTokenizer
  | RegexFeaturizer
  | LexicalSyntacticFeaturizer
  | CountVectorsFeaturizer
  | DIETClassifier
  | ResponseSelector
  | EntitySynonymMapper
  | other (className : String)
deriving DecidableEq, Repr

/-- The `name` class attribute of an NLU component class (used by the step
builders only when no explicit unique name is passed). -/
def ComponentClass.clsName : ComponentClass → String
  | .WhitespaceTokenizer => "WhitespaceTokenizer"
  | .RegexFeaturizer => "RegexFeaturizer"
  | .LexicalSyntacticFeaturizer => "LexicalSyntacticFeaturizer"
  | .CountVectorsFeaturizer => "CountVectorsFeaturizer"
  | .DIETClassifier => "DIETClassifier"
  | .ResponseSelector => "ResponseSelector"
  | .EntitySynonymMapper => "EntitySynonymMapper"
  | .other n => n

/-- A dialogue policy class as returned by
`rasa.core.registry.policy_from_module_path`: identified by its name and
carrying the declared parameter names of its `train` method, which
`core_config_to_train_graph_schema` probes via `inspect.signature`. -/
structure PolicyClass where
  clsName : String
  trainParams : List String
deriving DecidableEq, Repr

/-- The value of the `uses` field of a task spec: a component class, a
policy class, or one of the fixed graph-component classes imported from
`rasa.architecture_prototype.graph_components`. -/
inductive Uses where
  | component (c : ComponentClass)
  | policy (p : PolicyClass)
  | TrainingDataReader
  | DomainReader
  | StoryGraphReader
  | TrackerGenerator
  | StoryToTrainingDataConverter
  | MessageToE2EFeatureConverter
deriving DecidableEq, Repr

/-- The `name` attribute of whatever object sits in a `uses` field. -/
def Uses.clsName : Uses → String
  | .component c => c.clsName
  | .policy p => p.clsName
  | .TrainingDataReader => "TrainingDataReader"
  | .DomainReader => "DomainReader"
  | .StoryGraphReader => "StoryGraphReader"
  | .TrackerGenerator => "TrackerGenerator"
  | .StoryToTrainingDataConverter => "StoryToTrainingDataConverter"
  | .MessageToE2EFeatureConverter => "MessageToE2EFeatureConverter"

/-- A pipeline/policy config entry: a Python dict of string keys and
(opaque) values, e.g. `{name: CountVectorsFeaturizer, analyzer: char_wb}`. -/
abbrev EntryDict := List (String × String)

/-- The `config` field of a task spec, passed through unexamined by the
compiler: `{}`, `{"project": p}`, `{"component_config": d}` or the policy
entry dict itself. -/
inductive Conf where
  | empty
  | projectConf (project : String)
  | componentConfig (d : EntryDict)
  | policyConf (d : EntryDict)
deriving DecidableEq, Repr

/-- One compiled task, per the schema shape of the spec: `persist := none`
means the key is absent before the defaulting pass. -/
structure TaskSpec where
  uses : Uses
  fn : String
  config : Conf
  needs : List (String × String)
  persist : Option Bool
deriving DecidableEq, Repr

/-- A compiled schema: insertion-ordered mapping from task name to task
spec. -/
abbrev Schema := List (String × TaskSpec)

/-- Python `d.pop(k)`: returns the value at the (unique) key `k` together
with the dict without that key; `none` renders the `KeyError`. -/
def dictPop (d : EntryDict) (k : String) : Option (String × EntryDict) :=
  match d with
  | [] => none
  | (k', v) :: rest =>
    if k' = k then some (v, rest)
    else
      match dictPop rest k with
      | some (v', rest') => some (v', (k', v) :: rest')
      | none => none

/-- Lookup in a schema (first occurrence; schemas built by the compiler
have unique keys). -/
def lookupTask (g : Schema) (k : String) : Option TaskSpec :=
  match g with
  | [] => none
  | (k', s) :: rest => if k' = k then some s else lookupTask rest k

/-- Python `g[k] = s` on a dict: overwrite in place if present, else
append. -/
def setKey (g : Schema) (k : String) (s : TaskSpec) : Schema :=
  match g with
  | [] => [(k, s)]
  | (k', s') :: rest => if k' = k then (k, s) :: rest else (k', s') :: setKey rest k s

/-- Python `g.update(f)` (and `{**g, **f}`): assign every binding of `f`
into `g`, left to right. -/
def schemaUpdate (g : Schema) (f : Schema) : Schema :=
  f.foldl (fun acc kv => setKey acc kv.1 kv.2) g

/-- The key list of a schema. -/
def schemaKeys (g : Schema) : List String :=
  g.map Prod.fst

/-- Every task name appearing as a value of some task's `needs` mapping. -/
def needsValues (g : Schema) : List String :=
  g.flatMap fun kv => kv.2.needs.map Prod.snd

/-- Modelled from the spec: `graph.fill_defaults`
(`rasa/architecture_prototype/graph.py`, not under `src/`) — the
defaulting pass that fills every missing optional field of every task spec
with a fixed default; per the spec the only defaulted field is `persist`,
which defaults to `true` when absent. -/
def fill_defaults (g : Schema) : Schema :=
  g.map fun kv => (kv.1, { kv.2 with persist := some (kv.2.persist.getD true) })

/-- `train_and_process_component` (config_to_graph.py lines 31-63): the
train-and-process step builder. Python's falsy-default handling of `name`
and `config` is kept (`none` or `""`/empty fall back). -/
def train_and_process_component (component_class : Uses) (input_task_name : String)
    (config : Option Conf) (name : Option String) (train_function : String)
    (process_function : String) (input_data_param_name : String) :
    Schema × String :=
  let name := match name with
    | some n => if n = "" then component_class.clsName else n
    | none => component_class.clsName
  let train_task_name := "train_" ++ name
  let process_task_name := "process_" ++ name
  let config := match config with
    | some c => if c = Conf.empty then Conf.empty else c
    | none => Conf.empty
  ([ (train_task_name,
      { uses := component_class
        fn := train_function
        config := config
        needs := [(input_data_param_name, input_task_name)]
        persist := none }),
     (process_task_name,
      { uses := component_class
        fn := process_function
        config := config
        needs := [("resource_name", train_task_name),
                  (input_data_param_name, input_task_name)]
        persist := none }) ],
   process_task_name)

/-- `train_component` (config_to_graph.py lines 66-87): the train-only
step builder; note the returned output task name is the *input* task
name. -/
def train_component (component_class : Uses) (input_task_name : String)
    (config : Option Conf) (name : Option String) (train_function : String)
    (input_data_param_name : String) : Schema × String :=
  let name := match name with
    | some n => if n = "" then component_class.clsName else n
    | none => component_class.clsName
  let train_task_name := "train_" ++ name
  let config := match config with
    | some c => if c = Conf.empty then Conf.empty else c
    | none => Conf.empty
  ([ (train_task_name,
      { uses := component_class
        fn := train_function
        config := config
        needs := [(input_data_param_name, input_task_name)]
        persist := none }) ],
   input_task_name)

/-- `process_component` (config_to_graph.py lines 90-112): the
process-only step builder; its single task carries `persist: False`. -/
def process_component (component_class : Uses) (input_task_name : String)
    (config : Option Conf) (name : Option String) (process_function : String)
    (input_data_param_name : String) : Schema × String :=
  let name := match name with
    | some n => if n = "" then component_class.clsName else n
    | none => component_class.clsName
  let process_task_name := "process_" ++ name
  let config := match config with
    | some c => if c = Conf.empty then Conf.empty else c
    | none => Conf.empty
  ([ (process_task_name,
      { uses := component_class
        fn := process_function
        config := config
        needs := [(input_data_param_name, input_task_name)]
        persist := some false }) ],
   process_task_name)

/-- The static step-kind table `meta` of `nlu_config_to_train_graph_schema`
(lines 124-132), keyed by component class; a class outside the table is a
`KeyError` (`none`). -/
def meta : ComponentClass → Option StepKind
  | .WhitespaceTokenizer => some .process
  | .RegexFeaturizer => some .train_process
  | .LexicalSyntacticFeaturizer => some .train_process
  | .CountVectorsFeaturizer => some .train_process
  | .DIETClassifier => some .train
  | .ResponseSelector => some .train
  | .EntitySynonymMapper => some .train
  | .other _ => none

/-- The full config dict, as far as the compiler reads it: its
`pipeline` and `policies` lists. -/
structure Config where
  pipeline : List EntryDict
  policies : List EntryDict
deriving DecidableEq, Repr

/-- The body of one iteration of the pipeline fold of
`nlu_config_to_train_graph_schema` (lines 147-168): pop the entry's name,
namespace it with the running index, resolve the class and its step kind,
skip pure-train entries under `only_process`, otherwise run the matching
step builder and merge its fragment. -/
def nluStep (reg : String → Option ComponentClass) (component_namespace : Option String)
    (only_process : Bool) (i : Nat) (g : Schema) (last : String)
    (component : EntryDict) : Option (Schema × String) := do
  let (component_name, component) ← dictPop component "name"
  let unique_component_name := component_name ++ "_" ++ Nat.repr i
  let unique_component_name := match component_namespace with
    | some ns => if ns = "" then unique_component_name
                 else ns ++ "_" ++ unique_component_name
    | none => unique_component_name
  let component_class ← reg component_name
  let step_type ← meta component_class
  if step_type = StepKind.train ∧ only_process = true then
    pure (g, last)
  else
    let config := Conf.componentConfig component
    let (component_def, last') :=
      match step_type with
      | StepKind.process =>
        process_component (Uses.component component_class) last (some config)
          (some unique_component_name) "process_training_data" "training_data"
      | StepKind.train =>
        train_component (Uses.component component_class) last (some config)
          (some unique_component_name) "train" "training_data"
      | StepKind.train_process =>
        train_and_process_component (Uses.component component_class) last (some config)
          (some unique_component_name) "train" "process_training_data" "training_data"
    pure (schemaUpdate g component_def, last')

/-- The pipeline fold of `nlu_config_to_train_graph_schema`, threading the
schema and the current-output pointer, with `i` the running
`enumerate` index. -/
def nluFold (reg : String → Option ComponentClass) (component_namespace : Option String)
    (only_process : Bool) (i : Nat) (g : Schema) (last : String) :
    List EntryDict → Option (Schema × String)
  | [] => some (g, last)
  | component :: rest => do
    let (g', last') ← nluStep reg component_namespace only_process i g last component
    nluFold reg component_namespace only_process (i + 1) g' last' rest

/-- The initial `load_data` task of the NLU compiler (lines 138-146). -/
def loadDataTask (project : String) : TaskSpec :=
  { uses := Uses.TrainingDataReader
    fn := "read"
    config := Conf.projectConf project
    needs := []
    persist := some false }

/-- The initialization of the NLU compiler (lines 133-146): a truthy
`input_task` starts from an empty graph with the pointer on the external
task, otherwise the synthetic `load_data` root is prepended. -/
def nluInit (project : String) (input_task : Option String) : Schema × String :=
  match input_task with
  | some t =>
    if t = "" then ([("load_data", loadDataTask project)], "load_data")
    else ([], t)
  | none => ([("load_data", loadDataTask project)], "load_data")

/-- `nlu_config_to_train_graph_schema` (config_to_graph.py lines 115-172).
`reg` is the external `rasa.nlu.registry.get_component_class`. A falsy
(absent or empty) `input_task` selects the synthetic `load_data` root,
mirroring Python truthiness. -/
def nlu_config_to_train_graph_schema (reg : String → Option ComponentClass)
    (project : String) (config : Config) (component_namespace : Option String)
    (input_task : Option String) (only_process : Bool) :
    Option (Schema × String) :=
  match nluFold reg component_namespace only_process 0 (nluInit project input_task).1
      (nluInit project input_task).2 config.pipeline with
  | some (nlu_train_graph, last_component_out) =>
    some (fill_defaults nlu_train_graph, last_component_out)
  | none => none

/-- The three fixed upstream tasks of `core_config_to_train_graph_schema`
(lines 179-200). -/
def coreBase (project : String) : Schema :=
  [ ("load_domain",
     { uses := Uses.DomainReader
       fn := "read"
       config := Conf.projectConf project
       needs := []
       persist := none }),
    ("load_stories",
     { uses := Uses.StoryGraphReader
       fn := "read"
       config := Conf.projectConf project
       needs := []
       persist := some false }),
    ("generate_trackers",
     { uses := Uses.TrackerGenerator
       fn := "generate"
       config := Conf.empty
       needs := [("domain", "load_domain"), ("story_graph", "load_stories")]
       persist := some false }) ]

/-- The body of one iteration of the policy fold of
`core_config_to_train_graph_schema` (lines 203-224): pop the policy name,
build its task (fn `train`, needing the trackers and the domain), probe
the policy class's `train` parameters for `e2e_features`, and merge. -/
def policyStep (polReg : String → Option PolicyClass) (i : Nat)
    (acc : Schema × List String × Bool) (policy : EntryDict) :
    Option (Schema × List String × Bool) := do
  let (g, policy_names, e2e) := acc
  let (policy_name, policy) ← dictPop policy "name"
  let unique_policy_name := policy_name ++ "_" ++ Nat.repr i
  let policy_names := policy_names ++ [unique_policy_name]
  let policy_class ← polReg policy_name
  let needs := [("training_trackers", "generate_trackers"), ("domain", "load_domain")]
  let (needs, e2e) :=
    if "e2e_features" ∈ policy_class.trainParams
    then (needs ++ [("e2e_features", "create_e2e_lookup")], true)
    else (needs, e2e)
  pure (schemaUpdate g
          [(unique_policy_name,
            { uses := Uses.policy policy_class
              fn := "train"
              config := Conf.policyConf policy
              needs := needs
              persist := none })],
        policy_names, e2e)

/-- The policy fold of `core_config_to_train_graph_schema`, threading the
schema, the collected policy task names and the `e2e` flag. -/
def policyFold (polReg : String → Option PolicyClass) (i : Nat)
    (acc : Schema × List String × Bool) :
    List EntryDict → Option (Schema × List String × Bool)
  | [] => some acc
  | policy :: rest => do
    let acc' ← policyStep polReg i acc policy
    policyFold polReg (i + 1) acc' rest

/-- The `convert_stories_for_nlu` task added when some policy supports E2E
features (lines 227-233). -/
def convertStoriesTask : TaskSpec :=
  { uses := Uses.StoryToTrainingDataConverter
    fn := "convert_for_training"
    config := Conf.empty
    needs := [("story_graph", "load_stories")]
    persist := some false }

/-- The `create_e2e_lookup` task (lines 242-248), fed by the E2E
sub-compile's output task. -/
def createE2ELookupTask (nlu_out : String) : TaskSpec :=
  { uses := Uses.MessageToE2EFeatureConverter
    fn := "convert"
    config := Conf.empty
    needs := [("training_data", nlu_out)]
    persist := some false }

/-- The conditional E2E fan-out of `core_config_to_train_graph_schema`
(lines 226-248): when some policy supports E2E features, add the
`convert_stories_for_nlu` task, merge the `only_process` NLU sub-compile
(namespace `core`, fed by `convert_stories_for_nlu`), and add the
`create_e2e_lookup` task fed by the sub-compile's output task. -/
def coreMaybeE2E (reg : String → Option ComponentClass) (project : String)
    (config : Config) (e2e : Bool) (core_train_graph : Schema) : Option Schema :=
  if e2e then
    match nlu_config_to_train_graph_schema reg project config (some "core")
        (some "convert_stories_for_nlu") true with
    | some (nlu_train_graph_schema, nlu_out) =>
      some (setKey
        (schemaUpdate (setKey core_train_graph "convert_stories_for_nlu" convertStoriesTask)
          nlu_train_graph_schema)
        "create_e2e_lookup" (createE2ELookupTask nlu_out))
    | none => none
  else some core_train_graph

/-- `core_config_to_train_graph_schema` (config_to_graph.py lines
175-252). `polReg` is the external
`rasa.core.registry.policy_from_module_path`. -/
def core_config_to_train_graph_schema (reg : String → Option ComponentClass)
    (polReg : String → Option PolicyClass) (project : String) (config : Config) :
    Option (Schema × List String) :=
  match policyFold polReg 0 (coreBase project, [], false) config.policies with
  | some (core_train_graph, policy_names, e2e) =>
    match coreMaybeE2E reg project config e2e core_train_graph with
    | some core_train_graph2 => some (fill_defaults core_train_graph2, policy_names)
    | none => none
  | none => none

/-- `old_config_to_graph_schema` (config_to_graph.py lines 255-265).
`read_yaml` (external, `rasa.shared.utils.io`) is a parameter; the merged
schema is `{**core, **nlu}` and the outputs are `[*core_outs, nlu_out]`. -/
def old_config_to_graph_schema (reg : String → Option ComponentClass)
    (polReg : String → Option PolicyClass) (read_yaml : String → Config)
    (project : String) (config : String) : Option (Schema × List String) :=
  match nlu_config_to_train_graph_schema reg project (read_yaml config) none none false with
  | some (nlu_train_graph_schema, nlu_out) =>
    match core_config_to_train_graph_schema reg polReg project (read_yaml config) with
    | some (core_train_graph_schema, core_outs) =>
      some (schemaUpdate core_train_graph_schema nlu_train_graph_schema,
            core_outs ++ [nlu_out])
    | none => none
  | none => none

/-! ## Derived notions used by the claims -/

/-- Referential closure of a schema: every task name referenced in any
`needs` mapping is a key of the schema. -/
def Closure (g : Schema) : Prop :=
  ∀ v ∈ needsValues g, v ∈ schemaKeys g

instance (g : Schema) : Decidable (Closure g) := by
  unfold Closure; infer_instance

/-- The namespaced unique component name the NLU compiler computes for the
entry at index `i` whose popped name is `n`. -/
def uniqueName (component_namespace : Option String) (n : String) (i : Nat) : String :=
  let u := n ++ "_" ++ Nat.repr i
  match component_namespace with
  | some ns => if ns = "" then u else ns ++ "_" ++ u
  | none => u

/-- How one pipeline entry at index `i` resolves: its namespaced unique
name and its step kind (`none` when the name pop, the registry lookup or
the step-kind table fails). -/
def resolvedAt (reg : String → Option ComponentClass) (component_namespace : Option String)
    (i : Nat) (component : EntryDict) : Option (String × StepKind) := do
  let (n, _) ← dictPop component "name"
  let c ← reg n
  let k ← meta c
  pure (uniqueName component_namespace n i, k)

/-- The step kind a pipeline entry resolves to. -/
def stepKindOf (reg : String → Option ComponentClass) (component : EntryDict) :
    Option StepKind := do
  let (n, _) ← dictPop component "name"
  let c ← reg n
  meta c

/-- The train task names that the pure-train entries of a pipeline would
produce — exactly the entries the NLU compiler skips under
`only_process`. -/
def skippedTrainTasks (reg : String → Option ComponentClass)
    (component_namespace : Option String) (pipeline : List EntryDict) : List String :=
  pipeline.enum.filterMap fun p =>
    match resolvedAt reg component_namespace p.1 p.2 with
    | some (u, StepKind.train) => some ("train_" ++ u)
    | _ => none

/-! ## Association-list lemmas for `setKey` / `schemaUpdate` -/

theorem mem_schemaKeys_setKey {g : Schema} {k k' : String} {s : TaskSpec} :
    k' ∈ schemaKeys (setKey g k s) ↔ k' ∈ schemaKeys g ∨ k' = k := by
  induction g with
  | nil => simp [setKey, schemaKeys]
  | cons kv rest ih =>
    obtain ⟨a, b⟩ := kv
    simp only [setKey]
    split
    · rename_i h
      subst h
      simp [schemaKeys]
      tauto
    · simp [schemaKeys] at ih ⊢
      tauto

theorem needsValues_cons (a : String) (b : TaskSpec) (rest : Schema) :
    needsValues ((a, b) :: rest) = b.needs.map Prod.snd ++ needsValues rest := by
  simp [needsValues]

theorem mem_needsValues_setKey {g : Schema} {k v : String} {s : TaskSpec} :
    v ∈ needsValues (setKey g k s) → v ∈ needsValues g ∨ v ∈ s.needs.map Prod.snd := by
  induction g with
  | nil =>
    intro h
    rw [show setKey [] k s = [(k, s)] from rfl, needsValues_cons] at h
    rcases List.mem_append.mp h with h' | h'
    · exact Or.inr h'
    · simp [needsValues] at h'
  | cons kv rest ih =>
    obtain ⟨a, b⟩ := kv
    simp only [setKey]
    split
    · intro h
      rw [needsValues_cons] at h
      rcases List.mem_append.mp h with h' | h'
      · exact Or.inr h'
      · exact Or.inl (by rw [needsValues_cons]; exact List.mem_append.mpr (Or.inr h'))
    · intro h
      rw [needsValues_cons] at h
      rcases List.mem_append.mp h with h' | h'
      · exact Or.inl (by rw [needsValues_cons]; exact List.mem_append.mpr (Or.inl h'))
      · rcases ih h' with h'' | h''
        · exact Or.inl (by rw [needsValues_cons]; exact List.mem_append.mpr (Or.inr h''))
        · exact Or.inr h''

theorem mem_schemaKeys_schemaUpdate {g f : Schema} {k : String} :
    k ∈ schemaKeys (schemaUpdate g f) ↔ k ∈ schemaKeys g ∨ k ∈ schemaKeys f := by
  induction f generalizing g with
  | nil => simp [schemaUpdate, schemaKeys]
  | cons kv rest ih =>
    obtain ⟨a, b⟩ := kv
    show k ∈ schemaKeys (schemaUpdate (setKey g a b) rest) ↔ _
    rw [ih, mem_schemaKeys_setKey]
    simp [schemaKeys]
    tauto

theorem mem_needsValues_schemaUpdate {g f : Schema} {v : String} :
    v ∈ needsValues (schemaUpdate g f) → v ∈ needsValues g ∨ v ∈ needsValues f := by
  induction f generalizing g with
  | nil => exact fun h => Or.inl h
  | cons kv rest ih =>
    obtain ⟨a, b⟩ := kv
    intro h
    rcases ih h with h' | h'
    · rcases mem_needsValues_setKey h' with h'' | h''
      · exact Or.inl h''
      · exact Or.inr (by rw [needsValues_cons]; exact List.mem_append.mpr (Or.inl h''))
    · exact Or.inr (by rw [needsValues_cons]; exact List.mem_append.mpr (Or.inr h'))

theorem schemaKeys_fill_defaults (g : Schema) :
    schemaKeys (fill_defaults g) = schemaKeys g := by
  induction g with
  | nil => rfl
  | cons kv rest ih => simp [fill_defaults, schemaKeys]

theorem needsValues_fill_defaults (g : Schema) :
    needsValues (fill_defaults g) = needsValues g := by
  induction g with
  | nil => rfl
  | cons kv rest ih => simp [fill_defaults, needsValues] at ih ⊢; exact ih

theorem closure_fill_defaults {g : Schema} (h : Closure g) : Closure (fill_defaults g) := by
  intro v hv
  rw [needsValues_fill_defaults] at hv
  rw [schemaKeys_fill_defaults]
  exact h v hv

/-! ## Concrete registries and configs for scenario theorems and witnesses -/

/-- A concrete instance of the external component registry: the spec
scenario's `Tokenizer`/`Featurizer`/`Classifier` and short names `T`/`F`/`X`
mapped to classes of the three step kinds. -/
def scenarioReg : String → Option ComponentClass := fun n =>
  if n = "Tokenizer" then some ComponentClass.WhitespaceTokenizer
  else if n = "Featurizer" then some ComponentClass.CountVectorsFeaturizer
  else if n = "Classifier" then some ComponentClass.DIETClassifier
  else if n = "T" then some ComponentClass.WhitespaceTokenizer
  else if n = "F" then some ComponentClass.CountVectorsFeaturizer
  else if n = "X" then some ComponentClass.DIETClassifier
  else none

/-- A concrete instance of the external policy registry: `P1` does not
declare `e2e_features` in its train signature, `P2` does. -/
def scenarioPolReg : String → Option PolicyClass := fun n =>
  if n = "P1" then some { clsName := "P1", trainParams := ["training_trackers", "domain"] }
  else if n = "P2" then
    some { clsName := "P2", trainParams := ["training_trackers", "domain", "e2e_features"] }
  else none

/-! ## C2: train-only pointer invariant -/

/-- C2: the train-only step builder returns the upstream task name it was
given as its output task name, and consequently folding one train-only
step in the NLU compiler leaves the current-output pointer unchanged. -/
theorem C2_train_only_pointer :
    (∀ component_class input_task_name config name train_function input_data_param_name,
      (train_component component_class input_task_name config name train_function
        input_data_param_name).2 = input_task_name)
    ∧ (∀ reg ns op i g last component g' last',
        nluStep reg ns op i g last component = some (g', last') →
        stepKindOf reg component = some StepKind.train →
        last' = last) := by
  constructor
  · intro component_class input_task_name config name train_function input_data_param_name
    rfl
  · intro reg ns op i g last component g' last' h hk
    unfold nluStep at h
    unfold stepKindOf at hk
    cases hp : dictPop component "name" with
    | none => rw [hp] at h; simp at h
    | some p =>
      obtain ⟨n, comp'⟩ := p
      rw [hp] at h hk
      simp only [Option.bind_eq_bind, Option.some_bind] at h hk
      cases hr : reg n with
      | none => rw [hr] at h; simp at h
      | some c =>
        rw [hr] at h hk
        simp only [Option.some_bind] at h hk
        cases hm : meta c with
        | none => rw [hm] at h; simp at h
        | some st =>
          rw [hm] at h hk
          simp only [Option.some_bind] at h
          injection hk with hk'
          subst hk'
          by_cases hop : op = true
          · simp [hop] at h
            exact h.2.symm
          · simp [hop] at h
            rw [← h.2]
            rfl

/-- Witness for C2: both parts applied at concrete inputs. -/
theorem C2_witness :
    (train_component (Uses.component ComponentClass.DIETClassifier) "ld" none none
      "train" "training_data").2 = "ld"
    ∧ ("load_data" : String) = "load_data" :=
  ⟨C2_train_only_pointer.1 (Uses.component ComponentClass.DIETClassifier) "ld" none none
      "train" "training_data",
   C2_train_only_pointer.2 scenarioReg none false 0 [] "load_data" [("name", "X")]
      [("train_X_0",
        { uses := Uses.component ComponentClass.DIETClassifier
          fn := "train"
          config := Conf.componentConfig []
          needs := [("training_data", "load_data")]
          persist := none })]
      "load_data" (by decide) (by decide)⟩

/-! ## C3: the spec's concrete scenario -/

/-- The scenario pipeline `[Tokenizer(process), Featurizer(train_process),
Classifier(train)]`. -/
def c3config : Config :=
  { pipeline := [[("name", "Tokenizer")], [("name", "Featurizer")], [("name", "Classifier")]]
    policies := [] }

/-- The scenario compile, with no external input task. -/
def c3result : Option (Schema × String) :=
  nlu_config_to_train_graph_schema scenarioReg "p" c3config none none false

/-- The scenario schema. -/
def c3schema : Schema := (c3result.map Prod.fst).getD []

/-- C3 counterexample: on the scenario pipeline the compiler's returned
final output task name is `process_Featurizer_1`, not `train_Classifier_2`
as the claim states (the train-only final step does not advance the
output pointer). -/
theorem C3_counterexample :
    c3result.map Prod.snd = some "process_Featurizer_1"
    ∧ c3result.map Prod.snd ≠ some "train_Classifier_2" := by
  constructor
  · decide
  · decide

/-- C3 amended: the scenario schema contains `load_data`,
`process_Tokenizer_0`, `train_Featurizer_1`, `process_Featurizer_1` and
`train_Classifier_2`, with `train_Classifier_2.needs.training_data =
process_Featurizer_1`, and the returned final output task name is
`process_Featurizer_1` (the upstream of the train-only final step), not
`train_Classifier_2`. -/
theorem C3_scenario_amended :
    c3result.map Prod.snd = some "process_Featurizer_1"
    ∧ "load_data" ∈ schemaKeys c3schema
    ∧ "process_Tokenizer_0" ∈ schemaKeys c3schema
    ∧ "train_Featurizer_1" ∈ schemaKeys c3schema
    ∧ "process_Featurizer_1" ∈ schemaKeys c3schema
    ∧ "train_Classifier_2" ∈ schemaKeys c3schema
    ∧ (lookupTask c3schema "train_Classifier_2").map TaskSpec.needs =
        some [("training_data", "process_Featurizer_1")] := by
  refine ⟨by decide, by decide, by decide, by decide, by decide, by decide, by decide⟩

/-! ## C10: persist fields of the step builders -/

/-- C10: the train-and-process builder leaves `persist` unset on both its
tasks, so after the defaulting pass both are persisted; the process-only
builder sets `persist := false` on its single task, which the defaulting
pass keeps, so its processed-data output is not persisted. -/
theorem C10_persist_defaults :
    ∀ component_class input_task_name config name tf pf ip,
      ((train_and_process_component component_class input_task_name config name
          tf pf ip).1.map (fun kv => kv.2.persist) = [none, none])
      ∧ ((fill_defaults (train_and_process_component component_class input_task_name config name
          tf pf ip).1).map (fun kv => kv.2.persist) = [some true, some true])
      ∧ ((process_component component_class input_task_name config name
          pf ip).1.map (fun kv => kv.2.persist) = [some false])
      ∧ ((fill_defaults (process_component component_class input_task_name config name
          pf ip).1).map (fun kv => kv.2.persist) = [some false]) := by
  intro component_class input_task_name config name tf pf ip
  exact ⟨rfl, rfl, rfl, rfl⟩

/-! ## Characterization of one NLU fold step -/

/-- The task spec a train step (standalone or the train half of
train-and-process) produces for class `c`, remaining entry config `comp'`
and upstream task `last`. -/
def trainSpecOf (c : ComponentClass) (comp' : EntryDict) (last : String) : TaskSpec :=
  { uses := Uses.component c
    fn := "train"
    config := Conf.componentConfig comp'
    needs := [("training_data", last)]
    persist := none }

/-- The task spec a process-only step produces. -/
def procOnlySpecOf (c : ComponentClass) (comp' : EntryDict) (last : String) : TaskSpec :=
  { uses := Uses.component c
    fn := "process_training_data"
    config := Conf.componentConfig comp'
    needs := [("training_data", last)]
    persist := some false }

/-- The process task spec of a train-and-process step with unique name
`u`. -/
def tpProcSpecOf (c : ComponentClass) (comp' : EntryDict) (u last : String) : TaskSpec :=
  { uses := Uses.component c
    fn := "process_training_data"
    config := Conf.componentConfig comp'
    needs := [("resource_name", "train_" ++ u), ("training_data", last)]
    persist := none }

theorem append_sep_ne_empty (a b : String) : a ++ "_" ++ b ≠ "" := by
  intro h
  have hl := congrArg String.length h
  rw [String.length_append, String.length_append] at hl
  have h1 : ("_" : String).length = 1 := rfl
  have h0 : ("" : String).length = 0 := rfl
  rw [h1, h0] at hl
  omega

theorem uniqueName_ne_empty (ns : Option String) (n : String) (i : Nat) :
    uniqueName ns n i ≠ "" := by
  unfold uniqueName
  cases ns with
  | none => exact append_sep_ne_empty n (Nat.repr i)
  | some s =>
    by_cases hs : s = ""
    · simp only [hs, if_pos rfl]
      exact append_sep_ne_empty n (Nat.repr i)
    · simp only [if_neg hs]
      exact append_sep_ne_empty s (n ++ "_" ++ Nat.repr i)

/-- The step-builder invocation `builder(...)` of the NLU fold (lines
157-167), dispatched on the step kind. -/
def builderApp (st : StepKind) (c : ComponentClass) (comp' : EntryDict)
    (u last : String) : Schema × String :=
  match st with
  | StepKind.process =>
    process_component (Uses.component c) last (some (Conf.componentConfig comp'))
      (some u) "process_training_data" "training_data"
  | StepKind.train =>
    train_component (Uses.component c) last (some (Conf.componentConfig comp'))
      (some u) "train" "training_data"
  | StepKind.train_process =>
    train_and_process_component (Uses.component c) last (some (Conf.componentConfig comp'))
      (some u) "train" "process_training_data" "training_data"

theorem builderApp_process (c : ComponentClass) (comp' : EntryDict) (u last : String)
    (hu : u ≠ "") :
    builderApp StepKind.process c comp' u last =
      ([("process_" ++ u, procOnlySpecOf c comp' last)], "process_" ++ u) := by
  unfold builderApp process_component procOnlySpecOf
  simp [hu]

theorem builderApp_train (c : ComponentClass) (comp' : EntryDict) (u last : String)
    (hu : u ≠ "") :
    builderApp StepKind.train c comp' u last =
      ([("train_" ++ u, trainSpecOf c comp' last)], last) := by
  unfold builderApp train_component trainSpecOf
  simp [hu]

theorem builderApp_train_process (c : ComponentClass) (comp' : EntryDict) (u last : String)
    (hu : u ≠ "") :
    builderApp StepKind.train_process c comp' u last =
      ([("train_" ++ u, trainSpecOf c comp' last),
        ("process_" ++ u, tpProcSpecOf c comp' u last)], "process_" ++ u) := by
  unfold builderApp train_and_process_component trainSpecOf tpProcSpecOf
  simp [hu]

/-- A successful NLU fold step resolves its entry and either skips it
(pure-train under `only_process`) or merges the matching step builder's
fragment, built with the namespaced unique name. -/
theorem nluStep_succ {reg : String → Option ComponentClass} {ns : Option String}
    {op : Bool} {i : Nat} {g : Schema} {last : String} {component : EntryDict}
    {g' : Schema} {last' : String}
    (h : nluStep reg ns op i g last component = some (g', last')) :
    ∃ n comp' c st, dictPop component "name" = some (n, comp') ∧ reg n = some c ∧
      meta c = some st ∧
      ((st = StepKind.train ∧ op = true ∧ g' = g ∧ last' = last)
       ∨ (¬(st = StepKind.train ∧ op = true) ∧
          g' = schemaUpdate g (builderApp st c comp' (uniqueName ns n i) last).1 ∧
          last' = (builderApp st c comp' (uniqueName ns n i) last).2)) := by
  unfold nluStep at h
  cases hp : dictPop component "name" with
  | none => rw [hp] at h; simp at h
  | some p =>
    obtain ⟨n, comp'⟩ := p
    rw [hp] at h
    simp only [Option.bind_eq_bind, Option.some_bind] at h
    cases hr : reg n with
    | none => rw [hr] at h; simp at h
    | some c =>
      rw [hr] at h
      simp only [Option.some_bind] at h
      cases hm : meta c with
      | none => rw [hm] at h; simp at h
      | some st =>
        rw [hm] at h
        simp only [Option.some_bind] at h
        refine ⟨n, comp', c, st, rfl, hr, hm, ?_⟩
        by_cases hop : st = StepKind.train ∧ op = true
        · rw [if_pos hop] at h
          injection h with h'
          injection h' with h1 h2
          exact Or.inl ⟨hop.1, hop.2, h1.symm, h2.symm⟩
        · rw [if_neg hop] at h
          have h' : (schemaUpdate g (builderApp st c comp' (uniqueName ns n i) last).1,
              (builderApp st c comp' (uniqueName ns n i) last).2) = (g', last') := by
            exact Option.some.inj h
          injection h' with h1 h2
          exact Or.inr ⟨hop, h1.symm, h2.symm⟩

/-- Full case analysis of one successful NLU fold step, with the three
builder fragments expanded. -/
theorem nluStep_spec {reg : String → Option ComponentClass} {ns : Option String}
    {op : Bool} {i : Nat} {g : Schema} {last : String} {component : EntryDict}
    {g' : Schema} {last' : String}
    (h : nluStep reg ns op i g last component = some (g', last')) :
    ∃ n comp' c st, dictPop component "name" = some (n, comp') ∧ reg n = some c ∧
      meta c = some st ∧
      ((st = StepKind.train ∧ op = true ∧ g' = g ∧ last' = last)
       ∨ (st = StepKind.process ∧
          g' = schemaUpdate g
            [("process_" ++ uniqueName ns n i, procOnlySpecOf c comp' last)] ∧
          last' = "process_" ++ uniqueName ns n i)
       ∨ (st = StepKind.train ∧ op = false ∧
          g' = schemaUpdate g
            [("train_" ++ uniqueName ns n i, trainSpecOf c comp' last)] ∧
          last' = last)
       ∨ (st = StepKind.train_process ∧
          g' = schemaUpdate g
            [("train_" ++ uniqueName ns n i, trainSpecOf c comp' last),
             ("process_" ++ uniqueName ns n i, tpProcSpecOf c comp' (uniqueName ns n i) last)] ∧
          last' = "process_" ++ uniqueName ns n i)) := by
  obtain ⟨n, comp', c, st, hp, hr, hm, hcase⟩ := nluStep_succ h
  refine ⟨n, comp', c, st, hp, hr, hm, ?_⟩
  have hune := uniqueName_ne_empty ns n i
  rcases hcase with hskip | ⟨hop, hg, hl⟩
  · exact Or.inl hskip
  · cases st with
    | process =>
      rw [builderApp_process c comp' _ last hune] at hg hl
      exact Or.inr (Or.inl ⟨rfl, hg, hl⟩)
    | train =>
      have hopf : op = false := by
        cases op with
        | false => rfl
        | true => exact absurd ⟨rfl, rfl⟩ hop
      rw [builderApp_train c comp' _ last hune] at hg hl
      exact Or.inr (Or.inr (Or.inl ⟨rfl, hopf, hg, hl⟩))
    | train_process =>
      rw [builderApp_train_process c comp' _ last hune] at hg hl
      exact Or.inr (Or.inr (Or.inr ⟨rfl, hg, hl⟩))

/-! ## Closure invariants of the folds -/

theorem nluFold_closure {reg : String → Option ComponentClass} {ns : Option String}
    {op : Bool} (S : List String) (ds : List EntryDict) :
    ∀ (i : Nat) (g : Schema) (last : String) (g' : Schema) (last' : String),
      nluFold reg ns op i g last ds = some (g', last') →
      (∀ v ∈ needsValues g, v ∈ schemaKeys g ∨ v ∈ S) →
      (last ∈ schemaKeys g ∨ last ∈ S) →
      ((∀ v ∈ needsValues g', v ∈ schemaKeys g' ∨ v ∈ S)
        ∧ (last' ∈ schemaKeys g' ∨ last' ∈ S)
        ∧ (∀ k ∈ schemaKeys g, k ∈ schemaKeys g')) := by
  induction ds with
  | nil =>
    intro i g last g' last' h hcl hlast
    unfold nluFold at h
    injection h with h'
    injection h' with h1 h2
    subst h1
    subst h2
    exact ⟨hcl, hlast, fun k hk => hk⟩
  | cons component rest ih =>
    intro i g last g' last' h hcl hlast
    unfold nluFold at h
    cases hs : nluStep reg ns op i g last component with
    | none => rw [hs] at h; simp at h
    | some p =>
      obtain ⟨g1, last1⟩ := p
      rw [hs] at h
      simp only [Option.bind_eq_bind, Option.some_bind] at h
      obtain ⟨n, comp', c, st, hp, hr, hm, hcase⟩ := nluStep_spec hs
      have step : (∀ v ∈ needsValues g1, v ∈ schemaKeys g1 ∨ v ∈ S)
          ∧ (last1 ∈ schemaKeys g1 ∨ last1 ∈ S)
          ∧ (∀ k ∈ schemaKeys g, k ∈ schemaKeys g1) := by
        rcases hcase with ⟨_, _, hg, hl⟩ | ⟨_, hg, hl⟩ | ⟨_, _, hg, hl⟩ | ⟨_, hg, hl⟩
        · subst hg; subst hl
          exact ⟨hcl, hlast, fun k hk => hk⟩
        · -- process-only step
          have hmono : ∀ k ∈ schemaKeys g, k ∈ schemaKeys g1 := by
            intro k hk
            rw [hg]
            exact mem_schemaKeys_schemaUpdate.mpr (Or.inl hk)
          refine ⟨?_, ?_, hmono⟩
          · intro v hv
            rw [hg] at hv
            rcases mem_needsValues_schemaUpdate hv with hv' | hv'
            · rcases hcl v hv' with h' | h'
              · exact Or.inl (hmono v h')
              · exact Or.inr h'
            · have hveq : v = last := by
                simp [needsValues, procOnlySpecOf] at hv'
                exact hv'
              subst hveq
              rcases hlast with h' | h'
              · exact Or.inl (hmono v h')
              · exact Or.inr h'
          · rw [hl, hg]
            exact Or.inl (mem_schemaKeys_schemaUpdate.mpr
              (Or.inr (by simp [schemaKeys])))
        · -- train-only step (not skipped)
          have hmono : ∀ k ∈ schemaKeys g, k ∈ schemaKeys g1 := by
            intro k hk
            rw [hg]
            exact mem_schemaKeys_schemaUpdate.mpr (Or.inl hk)
          refine ⟨?_, ?_, hmono⟩
          · intro v hv
            rw [hg] at hv
            rcases mem_needsValues_schemaUpdate hv with hv' | hv'
            · rcases hcl v hv' with h' | h'
              · exact Or.inl (hmono v h')
              · exact Or.inr h'
            · have hveq : v = last := by
                simp [needsValues, trainSpecOf] at hv'
                exact hv'
              subst hveq
              rcases hlast with h' | h'
              · exact Or.inl (hmono v h')
              · exact Or.inr h'
          · rw [hl]
            rcases hlast with h' | h'
            · exact Or.inl (hmono last h')
            · exact Or.inr h'
        · -- train-and-process step
          have hmono : ∀ k ∈ schemaKeys g, k ∈ schemaKeys g1 := by
            intro k hk
            rw [hg]
            exact mem_schemaKeys_schemaUpdate.mpr (Or.inl hk)
          refine ⟨?_, ?_, hmono⟩
          · intro v hv
            rw [hg] at hv
            rcases mem_needsValues_schemaUpdate hv with hv' | hv'
            · rcases hcl v hv' with h' | h'
              · exact Or.inl (hmono v h')
              · exact Or.inr h'
            · have hveq : v = last ∨ v = "train_" ++ uniqueName ns n i := by
                simp [needsValues, trainSpecOf, tpProcSpecOf] at hv'
                tauto
              rcases hveq with h' | h'
              · subst h'
                rcases hlast with h'' | h''
                · exact Or.inl (hmono v h'')
                · exact Or.inr h''
              · subst h'
                rw [hg]
                exact Or.inl (mem_schemaKeys_schemaUpdate.mpr
                  (Or.inr (by simp [schemaKeys])))
          · rw [hl, hg]
            exact Or.inl (mem_schemaKeys_schemaUpdate.mpr
              (Or.inr (by simp [schemaKeys])))
      obtain ⟨h1, h2, h3⟩ := ih (i + 1) g1 last1 g' last' h step.1 step.2.1
      exact ⟨h1, h2, fun k hk => h3 k (step.2.2 k hk)⟩

/-- The common tail of the NLU compiler: fold then defaulting pass. -/
theorem nluTail_closure {reg : String → Option ComponentClass} {ns : Option String}
    {op : Bool} {g0 : Schema} {last0 : String} {pipeline : List EntryDict}
    {g : Schema} {out : String} (S : List String)
    (h : (match nluFold reg ns op 0 g0 last0 pipeline with
          | some (a, b) => some (fill_defaults a, b)
          | none => none) = some (g, out))
    (hcl0 : ∀ v ∈ needsValues g0, v ∈ schemaKeys g0 ∨ v ∈ S)
    (hl0 : last0 ∈ schemaKeys g0 ∨ last0 ∈ S) :
    (∀ v ∈ needsValues g, v ∈ schemaKeys g ∨ v ∈ S)
    ∧ (out ∈ schemaKeys g ∨ out ∈ S)
    ∧ (∀ k ∈ schemaKeys g0, k ∈ schemaKeys g) := by
  cases hf : nluFold reg ns op 0 g0 last0 pipeline with
  | none => rw [hf] at h; simp at h
  | some p =>
    obtain ⟨g1, out1⟩ := p
    rw [hf] at h
    injection h with h'
    injection h' with h1 h2
    obtain ⟨hcl, hlast, hmono⟩ := nluFold_closure S pipeline 0 g0 last0 g1 out1 hf hcl0 hl0
    subst h2
    constructor
    · intro v hv
      rw [← h1, needsValues_fill_defaults] at hv
      rcases hcl v hv with h' | h'
      · exact Or.inl (by rw [← h1, schemaKeys_fill_defaults]; exact h')
      · exact Or.inr h'
    constructor
    · rcases hlast with h' | h'
      · exact Or.inl (by rw [← h1, schemaKeys_fill_defaults]; exact h')
      · exact Or.inr h'
    · intro k hk
      rw [← h1, schemaKeys_fill_defaults]
      exact hmono k hk

/-- The initialization cases of the NLU compiler, paired with the allowed
external reference set. -/
theorem nluInit_spec (project : String) (input_task : Option String) :
    (nluInit project input_task =
        (([("load_data", loadDataTask project)] : Schema), "load_data"))
    ∨ (∃ t, input_task = some t ∧ t ≠ "" ∧ nluInit project input_task = ([], t)) := by
  unfold nluInit
  cases input_task with
  | none => exact Or.inl rfl
  | some t =>
    by_cases ht : t = ""
    · subst ht
      exact Or.inl rfl
    · exact Or.inr ⟨t, rfl, ht, by simp [ht]⟩

/-- At the compiler level: every `needs` value of the returned NLU schema
is a key of it or is the truthy external input task, and likewise the
returned output task name. -/
theorem nlu_closure {reg : String → Option ComponentClass} {project : String}
    {config : Config} {ns : Option String} {input_task : Option String} {op : Bool}
    {g : Schema} {out : String}
    (h : nlu_config_to_train_graph_schema reg project config ns input_task op =
      some (g, out)) :
    (∀ v ∈ needsValues g, v ∈ schemaKeys g
       ∨ (∃ t, input_task = some t ∧ t ≠ "" ∧ v = t))
    ∧ (out ∈ schemaKeys g ∨ (∃ t, input_task = some t ∧ t ≠ "" ∧ out = t)) := by
  unfold nlu_config_to_train_graph_schema at h
  rcases nluInit_spec project input_task with hinit | ⟨t, hit, hte, hinit⟩
  · rw [hinit] at h
    obtain ⟨hcl, hlast, _⟩ := nluTail_closure ([] : List String) h
      (by intro v hv; simp [needsValues, loadDataTask] at hv)
      (Or.inl (by simp [schemaKeys]))
    constructor
    · intro v hv
      rcases hcl v hv with h' | h'
      · exact Or.inl h'
      · simp at h'
    · rcases hlast with h' | h'
      · exact Or.inl h'
      · simp at h'
  · rw [hinit] at h
    obtain ⟨hcl, hlast, _⟩ := nluTail_closure ([t] : List String) h
      (by intro v hv; simp [needsValues] at hv)
      (Or.inr (by simp))
    constructor
    · intro v hv
      rcases hcl v hv with h' | h'
      · exact Or.inl h'
      · simp at h'
        exact Or.inr ⟨t, hit, hte, h'⟩
    · rcases hlast with h' | h'
      · exact Or.inl h'
      · simp at h'
        exact Or.inr ⟨t, hit, hte, h'⟩

/-! ## Policy fold characterization and Core closure -/

/-- The task spec the Core compiler emits for a policy of class `pc` whose
entry dict (after popping `name`) is `rest`. -/
def policySpecOf (pc : PolicyClass) (rest : EntryDict) : TaskSpec :=
  { uses := Uses.policy pc
    fn := "train"
    config := Conf.policyConf rest
    needs := [("training_trackers", "generate_trackers"), ("domain", "load_domain")] ++
      (if "e2e_features" ∈ pc.trainParams then [("e2e_features", "create_e2e_lookup")]
       else [])
    persist := none }

theorem policyStep_spec {polReg : String → Option PolicyClass} {i : Nat} {g : Schema}
    {names : List String} {e2e : Bool} {policy : EntryDict}
    {acc' : Schema × List String × Bool}
    (h : policyStep polReg i (g, names, e2e) policy = some acc') :
    ∃ n rest pc, dictPop policy "name" = some (n, rest) ∧ polReg n = some pc ∧
      acc' = (schemaUpdate g [(n ++ "_" ++ Nat.repr i, policySpecOf pc rest)],
              names ++ [n ++ "_" ++ Nat.repr i],
              if "e2e_features" ∈ pc.trainParams then true else e2e) := by
  unfold policyStep at h
  cases hp : dictPop policy "name" with
  | none => rw [hp] at h; simp at h
  | some p =>
    obtain ⟨n, rest⟩ := p
    rw [hp] at h
    simp only [Option.bind_eq_bind, Option.some_bind] at h
    cases hr : polReg n with
    | none => rw [hr] at h; simp at h
    | some pc =>
      rw [hr] at h
      simp only [Option.some_bind] at h
      refine ⟨n, rest, pc, rfl, hr, ?_⟩
      by_cases hmem : "e2e_features" ∈ pc.trainParams
      · rw [if_pos hmem] at h
        rw [if_pos hmem]
        injection h with h'
        rw [← h']
        unfold policySpecOf
        rw [if_pos hmem]
      · rw [if_neg hmem] at h
        rw [if_neg hmem]
        injection h with h'
        rw [← h']
        unfold policySpecOf
        rw [if_neg hmem]
        simp

theorem policyFold_closure {polReg : String → Option PolicyClass} (ps : List EntryDict) :
    ∀ (i : Nat) (g : Schema) (names : List String) (e2e : Bool)
      (g' : Schema) (names' : List String) (e2e' : Bool),
      policyFold polReg i (g, names, e2e) ps = some (g', names', e2e') →
      "generate_trackers" ∈ schemaKeys g → "load_domain" ∈ schemaKeys g →
      (∀ v ∈ needsValues g, v ∈ schemaKeys g ∨ v = "create_e2e_lookup") →
      (e2e = false → ∀ v ∈ needsValues g, v ∈ schemaKeys g) →
      ((∀ v ∈ needsValues g', v ∈ schemaKeys g' ∨ v = "create_e2e_lookup")
       ∧ (e2e' = false → ∀ v ∈ needsValues g', v ∈ schemaKeys g')
       ∧ (∀ k ∈ schemaKeys g, k ∈ schemaKeys g')) := by
  induction ps with
  | nil =>
    intro i g names e2e g' names' e2e' h hgt hld hcl hcl2
    unfold policyFold at h
    injection h with h'
    injection h' with h1 h2
    injection h2 with h3 h4
    subst h1
    subst h4
    exact ⟨hcl, hcl2, fun k hk => hk⟩
  | cons policy rest ih =>
    intro i g names e2e g' names' e2e' h hgt hld hcl hcl2
    unfold policyFold at h
    cases hs : policyStep polReg i (g, names, e2e) policy with
    | none => rw [hs] at h; simp at h
    | some acc1 =>
      rw [hs] at h
      simp only [Option.bind_eq_bind, Option.some_bind] at h
      obtain ⟨n, restd, pc, hp, hr, hacc⟩ := policyStep_spec hs
      subst hacc
      set g1 := schemaUpdate g [(n ++ "_" ++ Nat.repr i, policySpecOf pc restd)] with hg1
      have hmono : ∀ k ∈ schemaKeys g, k ∈ schemaKeys g1 := by
        intro k hk
        rw [hg1]
        exact mem_schemaKeys_schemaUpdate.mpr (Or.inl hk)
      have hstep1 : ∀ v ∈ needsValues g1, v ∈ schemaKeys g1 ∨ v = "create_e2e_lookup" := by
        intro v hv
        rw [hg1] at hv
        rcases mem_needsValues_schemaUpdate hv with hv' | hv'
        · rcases hcl v hv' with h' | h'
          · exact Or.inl (hmono v h')
          · exact Or.inr h'
        · have : v = "generate_trackers" ∨ v = "load_domain" ∨ v = "create_e2e_lookup" := by
            by_cases hmem : "e2e_features" ∈ pc.trainParams
            · simp [needsValues, policySpecOf, hmem] at hv'
              tauto
            · simp [needsValues, policySpecOf, hmem] at hv'
              tauto
          rcases this with h' | h' | h'
          · subst h'; exact Or.inl (hmono _ hgt)
          · subst h'; exact Or.inl (hmono _ hld)
          · exact Or.inr h'
      have hstep2 : (if "e2e_features" ∈ pc.trainParams then true else e2e) = false →
          ∀ v ∈ needsValues g1, v ∈ schemaKeys g1 := by
        intro he2e v hv
        by_cases hmem : "e2e_features" ∈ pc.trainParams
        · rw [if_pos hmem] at he2e
          exact absurd he2e (by simp)
        · rw [if_neg hmem] at he2e
          rw [hg1] at hv
          rcases mem_needsValues_schemaUpdate hv with hv' | hv'
          · exact hmono v (hcl2 he2e v hv')
          · have : v = "generate_trackers" ∨ v = "load_domain" := by
              simp [needsValues, policySpecOf, hmem] at hv'
              tauto
            rcases this with h' | h'
            · subst h'; exact hmono _ hgt
            · subst h'; exact hmono _ hld
      obtain ⟨h1, h2, h3⟩ := ih (i + 1) g1 _ _ g' names' e2e' h
        (hmono _ hgt) (hmono _ hld) hstep1 hstep2
      exact ⟨h1, h2, fun k hk => h3 k (hmono k hk)⟩

theorem schemaKeys_coreBase (project : String) :
    schemaKeys (coreBase project) = ["load_domain", "load_stories", "generate_trackers"] := rfl

theorem needsValues_coreBase (project : String) :
    needsValues (coreBase project) = ["load_domain", "load_stories"] := rfl

theorem coreMaybeE2E_true_spec {reg : String → Option ComponentClass} {project : String}
    {config : Config} {g0 g2 : Schema}
    (h : coreMaybeE2E reg project config true g0 = some g2) :
    ∃ ng nout,
      nlu_config_to_train_graph_schema reg project config (some "core")
        (some "convert_stories_for_nlu") true = some (ng, nout) ∧
      g2 = setKey
        (schemaUpdate (setKey g0 "convert_stories_for_nlu" convertStoriesTask) ng)
        "create_e2e_lookup" (createE2ELookupTask nout) := by
  unfold coreMaybeE2E at h
  rw [if_pos rfl] at h
  cases hn : nlu_config_to_train_graph_schema reg project config (some "core")
      (some "convert_stories_for_nlu") true with
  | none => rw [hn] at h; exact Option.noConfusion h
  | some q =>
    obtain ⟨ng, nout⟩ := q
    rw [hn] at h
    exact ⟨ng, nout, rfl, (Option.some.inj h).symm⟩

/-- Referential closure of the Core compiler's result. -/
theorem core_closure {reg : String → Option ComponentClass}
    {polReg : String → Option PolicyClass} {project : String} {config : Config}
    {g : Schema} {outs : List String}
    (h : core_config_to_train_graph_schema reg polReg project config = some (g, outs)) :
    Closure g := by
  unfold core_config_to_train_graph_schema at h
  cases hf : policyFold polReg 0 (coreBase project, [], false) config.policies with
  | none => rw [hf] at h; exact Option.noConfusion h
  | some acc =>
    obtain ⟨g1, names, e2e⟩ := acc
    rw [hf] at h
    have hbase := policyFold_closure config.policies 0 (coreBase project) [] false g1 names e2e hf
      (by rw [schemaKeys_coreBase]; simp)
      (by rw [schemaKeys_coreBase]; simp)
      (by intro v hv
          rw [needsValues_coreBase] at hv
          rw [schemaKeys_coreBase]
          simp at hv
          rcases hv with h' | h' <;> simp [h'])
      (by intro _ v hv
          rw [needsValues_coreBase] at hv
          rw [schemaKeys_coreBase]
          simp at hv
          rcases hv with h' | h' <;> simp [h'])
    obtain ⟨hcl1, hcl1f, hmono1⟩ := hbase
    have hls : "load_stories" ∈ schemaKeys g1 :=
      hmono1 _ (by rw [schemaKeys_coreBase]; simp)
    cases e2e with
    | false =>
      have h' : (fill_defaults g1, names) = (g, outs) := Option.some.inj h
      injection h' with h1 h2
      subst h1
      intro v hv
      rw [needsValues_fill_defaults] at hv
      rw [schemaKeys_fill_defaults]
      exact hcl1f rfl v hv
    | true =>
      replace h : (match coreMaybeE2E reg project config true g1 with
        | some core_train_graph2 => some (fill_defaults core_train_graph2, names)
        | none => none) = some (g, outs) := h
      cases hm : coreMaybeE2E reg project config true g1 with
      | none => rw [hm] at h; exact Option.noConfusion h
      | some g2 =>
        rw [hm] at h
        have h' : (fill_defaults g2, names) = (g, outs) := Option.some.inj h
        injection h' with h1 h2
        obtain ⟨ng, nout, hn, hg2⟩ := coreMaybeE2E_true_spec hm
        subst hg2
        subst h1
        obtain ⟨hncl, hnout⟩ := nlu_closure hn
        set gA := setKey g1 "convert_stories_for_nlu" convertStoriesTask with hgA
        set gB := schemaUpdate gA ng with hgB
        set gC := setKey gB "create_e2e_lookup" (createE2ELookupTask nout) with hgC
        have hmonoA : ∀ k ∈ schemaKeys g1, k ∈ schemaKeys gA := by
          intro k hk
          rw [hgA]
          exact mem_schemaKeys_setKey.mpr (Or.inl hk)
        have hmonoB : ∀ k ∈ schemaKeys gA, k ∈ schemaKeys gB := by
          intro k hk
          rw [hgB]
          exact mem_schemaKeys_schemaUpdate.mpr (Or.inl hk)
        have hmonoBn : ∀ k ∈ schemaKeys ng, k ∈ schemaKeys gB := by
          intro k hk
          rw [hgB]
          exact mem_schemaKeys_schemaUpdate.mpr (Or.inr hk)
        have hmonoC : ∀ k ∈ schemaKeys gB, k ∈ schemaKeys gC := by
          intro k hk
          rw [hgC]
          exact mem_schemaKeys_setKey.mpr (Or.inl hk)
        have hconvA : "convert_stories_for_nlu" ∈ schemaKeys gA := by
          rw [hgA]
          exact mem_schemaKeys_setKey.mpr (Or.inr rfl)
        have hcreateC : "create_e2e_lookup" ∈ schemaKeys gC := by
          rw [hgC]
          exact mem_schemaKeys_setKey.mpr (Or.inr rfl)
        have hnoutC : nout ∈ schemaKeys gC := by
          rcases hnout with h' | ⟨t, ht, _, ht2⟩
          · exact hmonoC _ (hmonoBn _ h')
          · injection ht with ht'
            rw [ht2, ← ht']
            exact hmonoC _ (hmonoB _ hconvA)
        intro v hv
        rw [needsValues_fill_defaults] at hv
        rw [schemaKeys_fill_defaults]
        rcases mem_needsValues_setKey hv with hv' | hv'
        · rcases mem_needsValues_schemaUpdate hv' with hv'' | hv''
          · rcases mem_needsValues_setKey hv'' with hv3 | hv3
            · rcases hcl1 v hv3 with h' | h'
              · exact hmonoC _ (hmonoB _ (hmonoA _ h'))
              · rw [h']
                exact hcreateC
            · have : v = "load_stories" := by
                simp [convertStoriesTask] at hv3
                exact hv3
              rw [this]
              exact hmonoC _ (hmonoB _ (hmonoA _ hls))
          · rcases hncl v hv'' with h' | ⟨t, ht, _, ht2⟩
            · exact hmonoC _ (hmonoBn _ h')
            · injection ht with ht'
              rw [ht2, ← ht']
              exact hmonoC _ (hmonoB _ hconvA)
        · have : v = nout := by
            simp [createE2ELookupTask] at hv'
            exact hv'
          rw [this]
          exact hnoutC

/-- Union of two closed schemas is closed. -/
theorem closure_schemaUpdate {a b : Schema} (ha : Closure a) (hb : Closure b) :
    Closure (schemaUpdate a b) := by
  intro v hv
  rcases mem_needsValues_schemaUpdate hv with h' | h'
  · exact mem_schemaKeys_schemaUpdate.mpr (Or.inl (ha v h'))
  · exact mem_schemaKeys_schemaUpdate.mpr (Or.inr (hb v h'))

/-! ## C1: referential closure of the compile entry points -/

/-- The NLU compile of a one-component pipeline fed by an external input
task named `ext_input`. -/
def c1result : Option (Schema × String) :=
  nlu_config_to_train_graph_schema scenarioReg "p" ⟨[[("name", "T")]], []⟩ none
    (some "ext_input") false

/-- C1 counterexample: the NLU compiler is one of the claim's compile
entry points, and when an external input task is supplied its returned
schema references that task without containing it, so referential closure
fails. -/
theorem C1_counterexample :
    c1result.isSome = true
    ∧ ¬ Closure ((c1result.map Prod.fst).getD []) := by
  constructor
  · decide
  · decide

/-- C1 amended: referential closure holds for every schema returned by the
Core compiler and by the top-level merge, and for the NLU compiler
whenever no (truthy) external input task is supplied; with a truthy
external input task the NLU schema's `needs` may also reference that
externally guaranteed task. -/
theorem C1_closure_amended :
    (∀ reg project config ns input_task op g out,
      (input_task = none ∨ input_task = some "") →
      nlu_config_to_train_graph_schema reg project config ns input_task op =
        some (g, out) →
      Closure g)
    ∧ (∀ reg polReg project config g outs,
        core_config_to_train_graph_schema reg polReg project config = some (g, outs) →
        Closure g)
    ∧ (∀ reg polReg read_yaml project config g outs,
        old_config_to_graph_schema reg polReg read_yaml project config = some (g, outs) →
        Closure g) := by
  refine ⟨?_, ?_, ?_⟩
  · intro reg project config ns input_task op g out hfalsy h
    intro v hv
    rcases (nlu_closure h).1 v hv with h' | ⟨t, ht, hte, _⟩
    · exact h'
    · rcases hfalsy with h'' | h''
      · rw [h''] at ht
        exact Option.noConfusion ht
      · rw [h''] at ht
        injection ht with ht'
        exact absurd ht'.symm hte
  · intro reg polReg project config g outs h
    exact core_closure h
  · intro reg polReg read_yaml project config g outs h
    unfold old_config_to_graph_schema at h
    cases hn : nlu_config_to_train_graph_schema reg project (read_yaml config)
        none none false with
    | none => rw [hn] at h; exact Option.noConfusion h
    | some p =>
      obtain ⟨ng, nout⟩ := p
      rw [hn] at h
      cases hc : core_config_to_train_graph_schema reg polReg project (read_yaml config) with
      | none => rw [hc] at h; exact Option.noConfusion h
      | some q =>
        obtain ⟨cg, couts⟩ := q
        rw [hc] at h
        have h' : (schemaUpdate cg ng, couts ++ [nout]) = (g, outs) := Option.some.inj h
        injection h' with h1 h2
        rw [← h1]
        refine closure_schemaUpdate (core_closure hc) ?_
        intro v hv
        rcases (nlu_closure hn).1 v hv with h' | ⟨t, ht, _, _⟩
        · exact h'
        · exact Option.noConfusion ht

/-- The Core compile used by the C1 witness. -/
def c1coreResult : Option (Schema × List String) :=
  core_config_to_train_graph_schema scenarioReg scenarioPolReg "p"
    ⟨[[("name", "T")]], [[("name", "P1")]]⟩

/-- Witness for C1: the amended closure theorem applied to a concrete Core
compile. -/
theorem C1_witness : Closure ((c1coreResult.map Prod.fst).getD []) := by
  cases hc : c1coreResult with
  | none =>
    intro v hv
    simp [needsValues] at hv
  | some r =>
    have h := C1_closure_amended.2.1 scenarioReg scenarioPolReg "p"
      ⟨[[("name", "T")]], [[("name", "P1")]]⟩ r.1 r.2
      (by rw [show core_config_to_train_graph_schema scenarioReg scenarioPolReg "p"
            ⟨[[("name", "T")]], [[("name", "P1")]]⟩ = c1coreResult from rfl, hc])
    simpa using h

/-! ## C6: output-pointer membership -/

/-- C6 counterexample: with an external input task and an empty pipeline
the NLU compiler returns the external task name as output, which is not a
key of the (empty) returned schema. -/
theorem C6_counterexample :
    nlu_config_to_train_graph_schema scenarioReg "p" ⟨[], []⟩ none
      (some "ext_input") false = some ([], "ext_input")
    ∧ "ext_input" ∉ schemaKeys ([] : Schema) := by
  constructor
  · decide
  · decide

/-- C6 amended: the output task name the NLU compiler returns is a key of
the returned schema or equals the (truthy) externally supplied input
task; in particular, with no external input task it is always a key. -/
theorem C6_output_membership_amended :
    ∀ reg project config ns input_task op g out,
      nlu_config_to_train_graph_schema reg project config ns input_task op =
        some (g, out) →
      ((out ∈ schemaKeys g ∨ input_task = some out)
       ∧ ((input_task = none ∨ input_task = some "") → out ∈ schemaKeys g)) := by
  intro reg project config ns input_task op g out h
  have hout := (nlu_closure h).2
  constructor
  · rcases hout with h' | ⟨t, ht, _, ht2⟩
    · exact Or.inl h'
    · rw [← ht2] at ht
      exact Or.inr ht
  · intro hfalsy
    rcases hout with h' | ⟨t, ht, hte, _⟩
    · exact h'
    · rcases hfalsy with h'' | h''
      · rw [h''] at ht
        exact Option.noConfusion ht
      · rw [h''] at ht
        injection ht with ht'
        exact absurd ht'.symm hte

/-- The NLU compile used by the C6 witness. -/
def c6result : Option (Schema × String) :=
  nlu_config_to_train_graph_schema scenarioReg "p" ⟨[[("name", "T")]], []⟩ none none false

/-- Witness for C6: the amended theorem applied to a concrete compile with
no external input task. -/
theorem C6_witness :
    ((c6result.map Prod.snd).getD "") ∈ schemaKeys ((c6result.map Prod.fst).getD []) := by
  cases hc : c6result with
  | none => exact absurd hc (by decide)
  | some r =>
    have h := C6_output_membership_amended scenarioReg "p" ⟨[[("name", "T")]], []⟩
      none none false r.1 r.2
      (by rw [show nlu_config_to_train_graph_schema scenarioReg "p"
            ⟨[[("name", "T")]], []⟩ none none false = c6result from rfl, hc])
    simpa using h.2 (Or.inl rfl)

/-! ## C7: Core policy folding versus the train-only step builder -/

/-- The Core compile of a single policy `P1`. -/
def c7result : Option (Schema × List String) :=
  core_config_to_train_graph_schema scenarioReg scenarioPolReg "p" ⟨[], [[("name", "P1")]]⟩

/-- C7 counterexample: for the policy list `[P1]` the Core compiler's
schema has a task named `P1_0` and no task named `train_P1_0`, so the
emitted policy task is not what the train-only step builder (which names
its task `train_<name>`) would produce. -/
theorem C7_counterexample :
    c7result.map Prod.snd = some ["P1_0"]
    ∧ "P1_0" ∈ schemaKeys ((c7result.map Prod.fst).getD [])
    ∧ "train_P1_0" ∉ schemaKeys ((c7result.map Prod.fst).getD []) := by
  refine ⟨by decide, by decide, by decide⟩

/-- C7 amended: the Core compiler's policy fold emits for the policy at
index `i` a task keyed by the bare unique name `<policy-name>_<i>` (not
`train_<policy-name>_<i>`), with fn `train` and needs
`{training_trackers: generate_trackers, domain: load_domain}` (plus
`e2e_features: create_e2e_lookup` exactly when the policy's train
signature declares `e2e_features`); this differs from the train-only step
builder's output, whose single task would be keyed
`train_<policy-name>_<i>` and would need only its one input parameter. -/
theorem C7_policy_task_amended :
    ∀ polReg i g names e2e policy acc' n rest pc input,
      policyStep polReg i (g, names, e2e) policy = some acc' →
      dictPop policy "name" = some (n, rest) →
      polReg n = some pc →
      (acc' = (schemaUpdate g [(n ++ "_" ++ Nat.repr i, policySpecOf pc rest)],
               names ++ [n ++ "_" ++ Nat.repr i],
               if "e2e_features" ∈ pc.trainParams then true else e2e)
       ∧ (policySpecOf pc rest).fn = "train"
       ∧ (policySpecOf pc rest).needs =
           [("training_trackers", "generate_trackers"), ("domain", "load_domain")] ++
           (if "e2e_features" ∈ pc.trainParams then [("e2e_features", "create_e2e_lookup")]
            else [])
       ∧ ((train_component (Uses.policy pc) input (some (Conf.policyConf rest))
            (some (n ++ "_" ++ Nat.repr i)) "train" "training_data").1.map Prod.fst) =
           ["train_" ++ (n ++ "_" ++ Nat.repr i)]
       ∧ "train_" ++ (n ++ "_" ++ Nat.repr i) ≠ n ++ "_" ++ Nat.repr i
       ∧ (policySpecOf pc rest).needs ≠ [("training_data", input)]) := by
  intro polReg i g names e2e policy acc' n rest pc input hstep hpop hreg
  obtain ⟨n', rest', pc', hpop', hreg', hacc⟩ := policyStep_spec hstep
  rw [hpop] at hpop'
  injection hpop' with hpop''
  injection hpop'' with hn hrest
  subst hn
  subst hrest
  rw [hreg] at hreg'
  injection hreg' with hpc
  subst hpc
  refine ⟨hacc, rfl, rfl, ?_, ?_, ?_⟩
  · unfold train_component
    simp [append_sep_ne_empty n (Nat.repr i)]
  · intro hbad
    have hl := congrArg String.length hbad
    rw [String.length_append] at hl
    have h6 : ("train_" : String).length = 6 := rfl
    rw [h6] at hl
    omega
  · intro hbad
    have hl := congrArg List.length hbad
    unfold policySpecOf at hl
    by_cases hmem : "e2e_features" ∈ pc.trainParams
    · rw [if_pos hmem] at hl
      simp at hl
    · rw [if_neg hmem] at hl
      simp at hl

/-- Witness for C7: the amended theorem applied to policy `P1` at
index 0. -/
theorem C7_witness :
    (schemaUpdate (coreBase "p") [("P1_0", policySpecOf
        { clsName := "P1", trainParams := ["training_trackers", "domain"] } [])],
      (["P1_0"] : List String),
      (false : Bool)) =
    (schemaUpdate (coreBase "p") [("P1_0", policySpecOf
        { clsName := "P1", trainParams := ["training_trackers", "domain"] } [])],
      ["P1_0"], false)
    ∧ "train_P1_0" ≠ "P1_0" := by
  have h := C7_policy_task_amended scenarioPolReg 0 (coreBase "p") [] false
    [("name", "P1")]
    (schemaUpdate (coreBase "p") [("P1_0", policySpecOf
        { clsName := "P1", trainParams := ["training_trackers", "domain"] } [])],
      ["P1_0"], false)
    "P1" [] { clsName := "P1", trainParams := ["training_trackers", "domain"] }
    "generate_trackers" (by decide) (by decide) (by decide)
  exact ⟨rfl, by
    have h5 := h.2.2.2.2.1
    intro hbad
    exact h5 (by
      have : ("P1" : String) ++ "_" ++ Nat.repr 0 = "P1_0" := by decide
      rw [this]
      exact hbad)⟩

/-! ## Decimal index representation facts -/

theorem digitChar_isDigit {n : Nat} (h : n < 10) : (Nat.digitChar n).isDigit = true := by
  interval_cases n <;> decide

theorem toDigitsCore_isDigit (fuel : Nat) :
    ∀ (n : Nat) (acc : List Char), (∀ c ∈ acc, c.isDigit = true) →
      ∀ c ∈ Nat.toDigitsCore 10 fuel n acc, c.isDigit = true := by
  induction fuel with
  | zero =>
    intro n acc hacc c hc
    exact hacc c hc
  | succ fuel ih =>
    intro n acc hacc c hc
    unfold Nat.toDigitsCore at hc
    have hext : ∀ d ∈ Nat.digitChar (n % 10) :: acc, d.isDigit = true := by
      intro d hd
      rcases List.mem_cons.mp hd with h' | h'
      · rw [h']
        exact digitChar_isDigit (Nat.mod_lt n (by omega))
      · exact hacc d h'
    by_cases h0 : n / 10 = 0
    · simp only [h0, if_pos] at hc
      exact hext c hc
    · simp only [if_neg h0] at hc
      exact ih (n / 10) (Nat.digitChar (n % 10) :: acc) hext c hc

theorem repr_data_eq (n : Nat) : (Nat.repr n).data = Nat.toDigitsCore 10 (n + 1) n [] := rfl

theorem repr_isDigit (n : Nat) : ∀ c ∈ (Nat.repr n).data, c.isDigit = true := by
  intro c hc
  rw [repr_data_eq] at hc
  exact toDigitsCore_isDigit (n + 1) n [] (by intro d hd; simp at hd) c hc

theorem repr_no_underscore (n : Nat) : '_' ∉ (Nat.repr n).data := by
  intro h
  have := repr_isDigit n '_' h
  exact absurd this (by decide)

/-- Numeric value of a digit character. -/
def digitVal (c : Char) : Nat := c.toNat - 48

/-- Value of a digit string under a left fold (most significant first). -/
def digitsVal (acc : Nat) (l : List Char) : Nat :=
  l.foldl (fun a c => a * 10 + digitVal c) acc

theorem digitsVal_acc (l : List Char) :
    ∀ acc, digitsVal acc l = acc * 10 ^ l.length + digitsVal 0 l := by
  induction l with
  | nil => intro acc; simp [digitsVal]
  | cons c rest ih =>
    intro acc
    show digitsVal (acc * 10 + digitVal c) rest =
      acc * 10 ^ (c :: rest).length + digitsVal (0 * 10 + digitVal c) rest
    rw [ih (acc * 10 + digitVal c), ih (0 * 10 + digitVal c)]
    simp [List.length_cons]
    ring

theorem digitVal_digitChar {m : Nat} (h : m < 10) : digitVal (Nat.digitChar m) = m := by
  interval_cases m <;> decide

theorem toDigitsCore_val (fuel : Nat) :
    ∀ (n : Nat) (acc : List Char), n < 10 ^ fuel →
      digitsVal 0 (Nat.toDigitsCore 10 fuel n acc) =
        n * 10 ^ acc.length + digitsVal 0 acc := by
  induction fuel with
  | zero =>
    intro n acc h
    simp at h
    subst h
    simp [Nat.toDigitsCore]
  | succ fuel ih =>
    intro n acc h
    unfold Nat.toDigitsCore
    have hdval : digitsVal 0 (Nat.digitChar (n % 10) :: acc) =
        (n % 10) * 10 ^ acc.length + digitsVal 0 acc := by
      show digitsVal (0 * 10 + digitVal (Nat.digitChar (n % 10))) acc = _
      rw [digitsVal_acc acc]
      rw [digitVal_digitChar (Nat.mod_lt n (by omega))]
      ring
    by_cases h0 : n / 10 = 0
    · simp only [h0, if_pos]
      rw [hdval]
      have : n % 10 = n := by omega
      rw [this]
    · simp only [if_neg h0]
      have hlt : n / 10 < 10 ^ fuel := by
        rw [Nat.div_lt_iff_lt_mul (by omega : 0 < 10)]
        calc n < 10 ^ (fuel + 1) := h
          _ = 10 ^ fuel * 10 := by ring
      rw [ih (n / 10) (Nat.digitChar (n % 10) :: acc) hlt]
      rw [hdval]
      have hsplit : n = 10 * (n / 10) + n % 10 := (Nat.div_add_mod n 10).symm
      calc (n / 10) * 10 ^ (Nat.digitChar (n % 10) :: acc).length +
            ((n % 10) * 10 ^ acc.length + digitsVal 0 acc)
          = (10 * (n / 10) + n % 10) * 10 ^ acc.length + digitsVal 0 acc := by
            simp [List.length_cons]
            ring
        _ = n * 10 ^ acc.length + digitsVal 0 acc := by rw [← hsplit]

theorem repr_val (n : Nat) : digitsVal 0 (Nat.repr n).data = n := by
  rw [repr_data_eq]
  rw [toDigitsCore_val (n + 1) n [] ?_]
  · simp [digitsVal]
  · calc n < 10 ^ n := Nat.lt_pow_self (by omega) n
      _ ≤ 10 ^ (n + 1) := Nat.pow_le_pow_right (by omega) (Nat.le_succ n)

theorem repr_injective {m n : Nat} (h : Nat.repr m = Nat.repr n) : m = n := by
  have h2 := congrArg (fun s => digitsVal 0 s.data) h
  simp only [] at h2
  rw [repr_val, repr_val] at h2
  exact h2

/-! ## Last-separator parsing of generated task names -/

theorem sep_parse {s t : List Char} (hs : '_' ∉ s) (ht : '_' ∉ t) :
    ∀ (a b : List Char), a ++ '_' :: s = b ++ '_' :: t → a = b ∧ s = t := by
  intro a
  induction a with
  | nil =>
    intro b h
    cases b with
    | nil =>
      simp at h
      exact ⟨rfl, h⟩
    | cons c b' =>
      simp at h
      obtain ⟨hc, h2⟩ := h
      exfalso
      apply hs
      rw [h2]
      exact List.mem_append.mpr (Or.inr (List.mem_cons_self _ _))
  | cons c a' ih =>
    intro b h
    cases b with
    | nil =>
      simp at h
      obtain ⟨hc, h2⟩ := h
      exfalso
      apply ht
      rw [← h2]
      exact List.mem_append.mpr (Or.inr (List.mem_cons_self _ _))
    | cons d b' =>
      simp at h
      obtain ⟨hcd, h2⟩ := h
      obtain ⟨h3, h4⟩ := ih b' h2
      exact ⟨by rw [hcd, h3], h4⟩

theorem underscore_repr_inj {x y : String} {i j : Nat}
    (h : x ++ "_" ++ Nat.repr i = y ++ "_" ++ Nat.repr j) : x = y ∧ i = j := by
  have hd := congrArg String.data h
  rw [String.data_append, String.data_append, String.data_append, String.data_append] at hd
  have h1 : ("_" : String).data = ['_'] := rfl
  rw [h1] at hd
  rw [List.append_assoc, List.append_assoc, List.singleton_append, List.singleton_append] at hd
  obtain ⟨h2, h3⟩ := sep_parse (repr_no_underscore i) (repr_no_underscore j) _ _ hd
  exact ⟨String.ext_iff.mpr h2, repr_injective (String.ext_iff.mpr h3)⟩

theorem firstChar_ne {x y : String} {c d : Char} {xs ys : List Char}
    (hx : x.data = c :: xs) (hy : y.data = d :: ys) (hcd : c ≠ d) : x ≠ y := by
  intro e
  rw [String.ext_iff, hx, hy] at e
  injection e with e1 _
  exact hcd e1

/-- A fixed task name whose final underscore-separated token contains a
non-digit is never a generated `<name>_<index>` task name. -/
theorem const_ne_name_idx (k : String) (pre tok : List Char)
    (hk : k.data = pre ++ '_' :: tok) (htok : '_' ∉ tok)
    (hbad : ∃ c ∈ tok, c.isDigit = false) :
    ∀ (p : String) (j : Nat), k ≠ p ++ "_" ++ Nat.repr j := by
  intro p j e
  have hd := congrArg String.data e
  rw [hk] at hd
  rw [String.data_append, String.data_append] at hd
  have h1 : ("_" : String).data = ['_'] := rfl
  rw [h1] at hd
  rw [List.append_assoc, List.singleton_append] at hd
  obtain ⟨-, h3⟩ := sep_parse htok (repr_no_underscore j) pre p.data hd
  obtain ⟨c, hc, hcbad⟩ := hbad
  have : c.isDigit = true := repr_isDigit j c (h3 ▸ hc)
  rw [this] at hcbad
  exact Bool.noConfusion hcbad

/-- Name hygiene for policy names: the policy name (followed by an
underscore) does not begin with `train_` or `process_`, so generated
policy task names cannot collide with step-builder task names. -/
def goodPolicyName (p : String) : Prop :=
  ¬ (("train_" : String).data <+: (p ++ "_").data)
  ∧ ¬ (("process_" : String).data <+: (p ++ "_").data)

instance (p : String) : Decidable (goodPolicyName p) := by
  unfold goodPolicyName
  infer_instance

/-- A generated `<p>_<j>` name whose `p` satisfies the hygiene condition
for the marker `preT` (whose data is an underscore-free `T0` followed by
`'_'`) never equals `preT ++ s`. -/
theorem good_ne_prefix_append (preT : String) (T0 : List Char)
    (hT : preT.data = T0 ++ ['_']) (hT0 : '_' ∉ T0)
    (p : String) (hp : ¬ (preT.data <+: (p ++ "_").data)) (j : Nat) (s : String) :
    p ++ "_" ++ Nat.repr j ≠ preT ++ s := by
  intro e
  have hd := congrArg String.data e
  rw [String.data_append, String.data_append, String.data_append] at hd
  have h1 : ("_" : String).data = ['_'] := rfl
  rw [h1, hT] at hd
  rw [List.append_assoc, List.singleton_append] at hd
  rw [List.append_assoc, List.singleton_append] at hd
  have hpu : (p ++ "_").data = p.data ++ ['_'] := by
    rw [String.data_append, h1]
  rcases Nat.lt_or_ge p.data.length T0.length with hlt | hge
  · have htake1 : (p.data ++ '_' :: (Nat.repr j).data).take (p.data.length + 1) =
        p.data ++ ['_'] := by
      rw [List.take_append]
      rfl
    have htake2 : (T0 ++ '_' :: s.data).take (p.data.length + 1) =
        T0.take (p.data.length + 1) := by
      apply List.take_append_of_le_length
      omega
    rw [hd, htake2] at htake1
    apply hT0
    have hm : '_' ∈ T0.take (p.data.length + 1) := by
      rw [htake1]
      exact List.mem_append.mpr (Or.inr (by simp))
    exact List.take_subset _ _ hm
  · apply hp
    rw [hT, hpu]
    have hTake : (p.data ++ '_' :: (Nat.repr j).data).take (T0.length + 1) =
        T0 ++ ['_'] := by
      rw [hd, List.take_append]
      rfl
    have hPre : (p.data ++ '_' :: (Nat.repr j).data).take (T0.length + 1) <+:
        p.data ++ ['_'] := by
      have h5 : (p.data ++ '_' :: (Nat.repr j).data).take (T0.length + 1) =
          ((p.data ++ '_' :: (Nat.repr j).data).take (p.data.length + 1)).take
            (T0.length + 1) := by
        rw [List.take_take, Nat.min_eq_left (by omega)]
      rw [h5]
      rw [show (p.data ++ '_' :: (Nat.repr j).data).take (p.data.length + 1) =
          p.data ++ ['_'] from by rw [List.take_append]; rfl]
      exact List.take_prefix _ _
    rw [hTake] at hPre
    exact hPre

theorem goodPolicyName_ne_train {p : String} (hp : goodPolicyName p) (j : Nat)
    (s : String) : p ++ "_" ++ Nat.repr j ≠ "train_" ++ s :=
  good_ne_prefix_append "train_" ("train").data rfl (by decide) p hp.1 j s

theorem goodPolicyName_ne_process {p : String} (hp : goodPolicyName p) (j : Nat)
    (s : String) : p ++ "_" ++ Nat.repr j ≠ "process_" ++ s :=
  good_ne_prefix_append "process_" ("process").data rfl (by decide) p hp.2 j s

theorem string_append_left_cancel {x a b : String} (h : x ++ a = x ++ b) : a = b := by
  have hd := congrArg String.data h
  rw [String.data_append, String.data_append] at hd
  exact String.ext_iff.mpr (List.append_cancel_left hd)

theorem string_prefix_append_ne {x a : String} (hx : x ≠ "") : x ++ a ≠ a := by
  intro h
  have hl := congrArg String.length h
  rw [String.length_append] at hl
  apply hx
  have h0 : x.length = 0 := by omega
  have h0' : x.data.length = 0 := h0
  have := List.length_eq_zero.mp h0'
  exact String.ext_iff.mpr (by rw [this])

/-! ## Key and needs characterization of the NLU fold -/

/-- `k` is a task name of a fragment some non-skipped entry of the
enumerated pipeline suffix contributes. -/
def FragKey (reg : String → Option ComponentClass) (ns : Option String) (op : Bool)
    (enum : List (Nat × EntryDict)) (k : String) : Prop :=
  ∃ p ∈ enum, ∃ u st, resolvedAt reg ns p.1 p.2 = some (u, st) ∧
    ¬(st = StepKind.train ∧ op = true) ∧
    ((k = "train_" ++ u ∧ st ≠ StepKind.process)
     ∨ (k = "process_" ++ u ∧ st ≠ StepKind.train))

/-- `v` is a `needs` value contributed by some non-skipped entry of the
enumerated pipeline suffix: a threaded process-task output or the
`resource_name` of a train-and-process fragment. -/
def FragNeed (reg : String → Option ComponentClass) (ns : Option String) (op : Bool)
    (enum : List (Nat × EntryDict)) (v : String) : Prop :=
  ∃ p ∈ enum, ∃ u st, resolvedAt reg ns p.1 p.2 = some (u, st) ∧
    ¬(st = StepKind.train ∧ op = true) ∧
    ((v = "train_" ++ u ∧ st = StepKind.train_process)
     ∨ (v = "process_" ++ u ∧ st ≠ StepKind.train))

theorem resolvedAt_of_parts {reg : String → Option ComponentClass} {ns : Option String}
    {i : Nat} {component : EntryDict} {n : String} {comp' : EntryDict}
    {c : ComponentClass} {st : StepKind}
    (hp : dictPop component "name" = some (n, comp')) (hr : reg n = some c)
    (hm : meta c = some st) :
    resolvedAt reg ns i component = some (uniqueName ns n i, st) := by
  unfold resolvedAt
  rw [hp]
  simp only [Option.bind_eq_bind, Option.some_bind]
  rw [hr]
  simp only [Option.some_bind]
  rw [hm]
  rfl

theorem nluFold_keys {reg : String → Option ComponentClass} {ns : Option String}
    {op : Bool} (ds : List EntryDict) :
    ∀ (i : Nat) (g : Schema) (last : String) (g' : Schema) (last' : String),
      nluFold reg ns op i g last ds = some (g', last') →
      ((∀ k, k ∈ schemaKeys g' → k ∈ schemaKeys g ∨ FragKey reg ns op (ds.enumFrom i) k)
       ∧ (∀ v, v ∈ needsValues g' →
           v ∈ needsValues g ∨ v = last ∨ FragNeed reg ns op (ds.enumFrom i) v)
       ∧ (last' = last ∨ ∃ p ∈ ds.enumFrom i, ∃ u st,
           resolvedAt reg ns p.1 p.2 = some (u, st) ∧ st ≠ StepKind.train ∧
           last' = "process_" ++ u)) := by
  induction ds with
  | nil =>
    intro i g last g' last' h
    unfold nluFold at h
    injection h with h'
    injection h' with h1 h2
    subst h1
    subst h2
    exact ⟨fun k hk => Or.inl hk, fun v hv => Or.inl hv, Or.inl rfl⟩
  | cons component rest ih =>
    intro i g last g' last' h
    unfold nluFold at h
    cases hs : nluStep reg ns op i g last component with
    | none => rw [hs] at h; simp at h
    | some p =>
      obtain ⟨g1, last1⟩ := p
      rw [hs] at h
      simp only [Option.bind_eq_bind, Option.some_bind] at h
      obtain ⟨hkeysR, hneedsR, hlastR⟩ := ih (i + 1) g1 last1 g' last' h
      obtain ⟨n, comp', c, st, hp, hr, hm, hcase⟩ := nluStep_spec hs
      have hres := @resolvedAt_of_parts reg ns i component n comp' c st hp hr hm
      have henum : (component :: rest).enumFrom i = (i, component) :: rest.enumFrom (i + 1) := rfl
      have hmemhd : ((i, component) : Nat × EntryDict) ∈ (component :: rest).enumFrom i := by
        rw [henum]
        exact List.mem_cons_self _ _
      have hweakK : ∀ k, FragKey reg ns op (rest.enumFrom (i + 1)) k →
          FragKey reg ns op ((component :: rest).enumFrom i) k := by
        rintro k ⟨q, hq, u, st', h1, h2, h3⟩
        exact ⟨q, by rw [henum]; exact List.mem_cons_of_mem _ hq, u, st', h1, h2, h3⟩
      have hweakN : ∀ v, FragNeed reg ns op (rest.enumFrom (i + 1)) v →
          FragNeed reg ns op ((component :: rest).enumFrom i) v := by
        rintro v ⟨q, hq, u, st', h1, h2, h3⟩
        exact ⟨q, by rw [henum]; exact List.mem_cons_of_mem _ hq, u, st', h1, h2, h3⟩
      rcases hcase with ⟨hst, hop, hg, hl⟩ | ⟨hst, hg, hl⟩ | ⟨hst, hop, hg, hl⟩ | ⟨hst, hg, hl⟩
      · -- skipped pure-train entry
        subst hg
        subst hl
        refine ⟨?_, ?_, ?_⟩
        · intro k hk
          rcases hkeysR k hk with h' | h'
          · exact Or.inl h'
          · exact Or.inr (hweakK k h')
        · intro v hv
          rcases hneedsR v hv with h' | h' | h'
          · exact Or.inl h'
          · exact Or.inr (Or.inl h')
          · exact Or.inr (Or.inr (hweakN v h'))
        · rcases hlastR with h' | ⟨q, hq, u, st', h1, h2, h3⟩
          · exact Or.inl h'
          · exact Or.inr ⟨q, by rw [henum]; exact List.mem_cons_of_mem _ hq, u, st', h1, h2, h3⟩
      · -- process-only entry
        subst hst
        have hkeys1 : ∀ k, k ∈ schemaKeys g1 → k ∈ schemaKeys g ∨
            FragKey reg ns op ((component :: rest).enumFrom i) k := by
          intro k hk
          rw [hg] at hk
          rcases mem_schemaKeys_schemaUpdate.mp hk with h' | h'
          · exact Or.inl h'
          · have : k = "process_" ++ uniqueName ns n i := by
              simp [schemaKeys] at h'
              exact h'
            exact Or.inr ⟨(i, component), hmemhd, uniqueName ns n i, StepKind.process,
              hres, by simp, Or.inr ⟨this, by simp⟩⟩
        have hneeds1 : ∀ v, v ∈ needsValues g1 → v ∈ needsValues g ∨ v = last ∨
            FragNeed reg ns op ((component :: rest).enumFrom i) v := by
          intro v hv
          rw [hg] at hv
          rcases mem_needsValues_schemaUpdate hv with h' | h'
          · exact Or.inl h'
          · have : v = last := by
              simp [needsValues, procOnlySpecOf] at h'
              exact h'
            exact Or.inr (Or.inl this)
        have hlast1 : last1 = last ∨
            FragNeed reg ns op ((component :: rest).enumFrom i) last1 ∧
            last1 = "process_" ++ uniqueName ns n i := by
          exact Or.inr ⟨⟨(i, component), hmemhd, uniqueName ns n i, StepKind.process,
            hres, by simp, Or.inr ⟨hl, by simp⟩⟩, hl⟩
        refine ⟨?_, ?_, ?_⟩
        · intro k hk
          rcases hkeysR k hk with h' | h'
          · exact hkeys1 k h'
          · exact Or.inr (hweakK k h')
        · intro v hv
          rcases hneedsR v hv with h' | h' | h'
          · exact hneeds1 v h'
          · rcases hlast1 with h'' | ⟨h3, _⟩
            · exact Or.inr (Or.inl (h'.trans h''))
            · exact Or.inr (Or.inr (by rw [h']; exact h3))
          · exact Or.inr (Or.inr (hweakN v h'))
        · rcases hlastR with h' | ⟨q, hq, u, st', h1, h2, h3⟩
          · rw [h', hl]
            exact Or.inr ⟨(i, component), hmemhd, uniqueName ns n i, StepKind.process,
              hres, by simp, rfl⟩
          · exact Or.inr ⟨q, by rw [henum]; exact List.mem_cons_of_mem _ hq, u, st', h1, h2, h3⟩
      · -- train-only entry, not skipped
        subst hst
        have hkeys1 : ∀ k, k ∈ schemaKeys g1 → k ∈ schemaKeys g ∨
            FragKey reg ns op ((component :: rest).enumFrom i) k := by
          intro k hk
          rw [hg] at hk
          rcases mem_schemaKeys_schemaUpdate.mp hk with h' | h'
          · exact Or.inl h'
          · have : k = "train_" ++ uniqueName ns n i := by
              simp [schemaKeys] at h'
              exact h'
            exact Or.inr ⟨(i, component), hmemhd, uniqueName ns n i, StepKind.train,
              hres, by simp [hop], Or.inl ⟨this, by simp⟩⟩
        have hneeds1 : ∀ v, v ∈ needsValues g1 → v ∈ needsValues g ∨ v = last ∨
            FragNeed reg ns op ((component :: rest).enumFrom i) v := by
          intro v hv
          rw [hg] at hv
          rcases mem_needsValues_schemaUpdate hv with h' | h'
          · exact Or.inl h'
          · have : v = last := by
              simp [needsValues, trainSpecOf] at h'
              exact h'
            exact Or.inr (Or.inl this)
        refine ⟨?_, ?_, ?_⟩
        · intro k hk
          rcases hkeysR k hk with h' | h'
          · exact hkeys1 k h'
          · exact Or.inr (hweakK k h')
        · intro v hv
          rcases hneedsR v hv with h' | h' | h'
          · exact hneeds1 v h'
          · exact Or.inr (Or.inl (h'.trans hl))
          · exact Or.inr (Or.inr (hweakN v h'))
        · rcases hlastR with h' | ⟨q, hq, u, st', h1, h2, h3⟩
          · exact Or.inl (h'.trans hl)
          · exact Or.inr ⟨q, by rw [henum]; exact List.mem_cons_of_mem _ hq, u, st', h1, h2, h3⟩
      · -- train-and-process entry
        subst hst
        have hkeys1 : ∀ k, k ∈ schemaKeys g1 → k ∈ schemaKeys g ∨
            FragKey reg ns op ((component :: rest).enumFrom i) k := by
          intro k hk
          rw [hg] at hk
          rcases mem_schemaKeys_schemaUpdate.mp hk with h' | h'
          · exact Or.inl h'
          · have : k = "train_" ++ uniqueName ns n i ∨
                k = "process_" ++ uniqueName ns n i := by
              simp [schemaKeys] at h'
              tauto
            rcases this with h'' | h''
            · exact Or.inr ⟨(i, component), hmemhd, uniqueName ns n i,
                StepKind.train_process, hres, by simp, Or.inl ⟨h'', by simp⟩⟩
            · exact Or.inr ⟨(i, component), hmemhd, uniqueName ns n i,
                StepKind.train_process, hres, by simp, Or.inr ⟨h'', by simp⟩⟩
        have hneeds1 : ∀ v, v ∈ needsValues g1 → v ∈ needsValues g ∨ v = last ∨
            FragNeed reg ns op ((component :: rest).enumFrom i) v := by
          intro v hv
          rw [hg] at hv
          rcases mem_needsValues_schemaUpdate hv with h' | h'
          · exact Or.inl h'
          · have : v = last ∨ v = "train_" ++ uniqueName ns n i := by
              simp [needsValues, trainSpecOf, tpProcSpecOf] at h'
              tauto
            rcases this with h'' | h''
            · exact Or.inr (Or.inl h'')
            · exact Or.inr (Or.inr ⟨(i, component), hmemhd, uniqueName ns n i,
                StepKind.train_process, hres, by simp, Or.inl ⟨h'', by simp⟩⟩)
        refine ⟨?_, ?_, ?_⟩
        · intro k hk
          rcases hkeysR k hk with h' | h'
          · exact hkeys1 k h'
          · exact Or.inr (hweakK k h')
        · intro v hv
          rcases hneedsR v hv with h' | h' | h'
          · exact hneeds1 v h'
          · rw [h', hl]
            exact Or.inr (Or.inr ⟨(i, component), hmemhd, uniqueName ns n i,
              StepKind.train_process, hres, by simp, Or.inr ⟨rfl, by simp⟩⟩)
          · exact Or.inr (Or.inr (hweakN v h'))
        · rcases hlastR with h' | ⟨q, hq, u, st', h1, h2, h3⟩
          · rw [h', hl]
            exact Or.inr ⟨(i, component), hmemhd, uniqueName ns n i,
              StepKind.train_process, hres, by simp, rfl⟩
          · exact Or.inr ⟨q, by rw [henum]; exact List.mem_cons_of_mem _ hq, u, st', h1, h2, h3⟩

theorem nluTail_keys {reg : String → Option ComponentClass} {ns : Option String}
    {op : Bool} {g0 : Schema} {last0 : String} {pipeline : List EntryDict}
    {g : Schema} {out : String}
    (h : (match nluFold reg ns op 0 g0 last0 pipeline with
          | some (a, b) => some (fill_defaults a, b)
          | none => none) = some (g, out)) :
    (∀ k, k ∈ schemaKeys g → k ∈ schemaKeys g0 ∨ FragKey reg ns op (pipeline.enumFrom 0) k)
    ∧ (∀ v, v ∈ needsValues g →
        v ∈ needsValues g0 ∨ v = last0 ∨ FragNeed reg ns op (pipeline.enumFrom 0) v) := by
  cases hf : nluFold reg ns op 0 g0 last0 pipeline with
  | none => rw [hf] at h; exact Option.noConfusion h
  | some p =>
    obtain ⟨g1, out1⟩ := p
    rw [hf] at h
    injection h with h'
    injection h' with h1 h2
    obtain ⟨hkeys, hneeds, _⟩ := nluFold_keys pipeline 0 g0 last0 g1 out1 hf
    constructor
    · intro k hk
      rw [← h1, schemaKeys_fill_defaults] at hk
      exact hkeys k hk
    · intro v hv
      rw [← h1, needsValues_fill_defaults] at hv
      exact hneeds v hv

/-- Keys of an NLU compile: the synthetic `load_data` root (when no truthy
input task is given) or a step-builder fragment task. -/
theorem nlu_keys {reg : String → Option ComponentClass} {project : String}
    {config : Config} {ns : Option String} {input_task : Option String} {op : Bool}
    {g : Schema} {out : String}
    (h : nlu_config_to_train_graph_schema reg project config ns input_task op =
      some (g, out)) :
    ∀ k, k ∈ schemaKeys g →
      k = "load_data" ∨ FragKey reg ns op (config.pipeline.enumFrom 0) k := by
  unfold nlu_config_to_train_graph_schema at h
  rcases nluInit_spec project input_task with hinit | ⟨t, hit, hte, hinit⟩
  · rw [hinit] at h
    intro k hk
    rcases (nluTail_keys h).1 k hk with h' | h'
    · exact Or.inl (by simpa [schemaKeys] using h')
    · exact Or.inr h'
  · rw [hinit] at h
    intro k hk
    rcases (nluTail_keys h).1 k hk with h' | h'
    · exact absurd h' (by simp [schemaKeys])
    · exact Or.inr h'

/-- Needs values of an NLU compile: the `load_data` root, the truthy
external input task, or a step-builder fragment reference. -/
theorem nlu_needs {reg : String → Option ComponentClass} {project : String}
    {config : Config} {ns : Option String} {input_task : Option String} {op : Bool}
    {g : Schema} {out : String}
    (h : nlu_config_to_train_graph_schema reg project config ns input_task op =
      some (g, out)) :
    ∀ v, v ∈ needsValues g →
      v = "load_data" ∨ (∃ t, input_task = some t ∧ t ≠ "" ∧ v = t)
      ∨ FragNeed reg ns op (config.pipeline.enumFrom 0) v := by
  unfold nlu_config_to_train_graph_schema at h
  rcases nluInit_spec project input_task with hinit | ⟨t, hit, hte, hinit⟩
  · rw [hinit] at h
    intro v hv
    rcases (nluTail_keys h).2 v hv with h' | h' | h'
    · exact absurd h' (by simp [needsValues, loadDataTask])
    · exact Or.inl h'
    · exact Or.inr (Or.inr h')
  · rw [hinit] at h
    intro v hv
    rcases (nluTail_keys h).2 v hv with h' | h' | h'
    · exact absurd h' (by simp [needsValues])
    · exact Or.inr (Or.inl ⟨t, hit, hte, h'⟩)
    · exact Or.inr (Or.inr h')

/-! ## Generated-name disequalities -/

theorem uniqueName_inj {ns : Option String} {a b : String} {i j : Nat}
    (h : uniqueName ns a i = uniqueName ns b j) : a = b ∧ i = j := by
  unfold uniqueName at h
  cases ns with
  | none => exact underscore_repr_inj h
  | some s =>
    by_cases hs : s = ""
    · subst hs
      simp only [if_pos rfl] at h
      exact underscore_repr_inj h
    · simp only [if_neg hs] at h
      exact underscore_repr_inj (string_append_left_cancel h)

theorem train_ne_process_str (a b : String) : "train_" ++ a ≠ "process_" ++ b :=
  firstChar_ne rfl rfl (by decide)

theorem load_data_ne_train (a : String) : "load_data" ≠ "train_" ++ a :=
  firstChar_ne rfl rfl (by decide)

theorem load_data_ne_process (a : String) : "load_data" ≠ "process_" ++ a :=
  firstChar_ne rfl rfl (by decide)

/-- Same-index entries of an enumerated list coincide. -/
theorem enumFrom_index_inj {α : Type} {l : List α} {n i : Nat} {a b : α}
    (ha : (i, a) ∈ l.enumFrom n) (hb : (i, b) ∈ l.enumFrom n) : a = b := by
  rw [List.mk_mem_enumFrom_iff_le_and_getElem?_sub] at ha hb
  have h1 := ha.2
  rw [hb.2] at h1
  injection h1 with h2
  exact h2.symm

/-! ## C4: only_process filtering -/

theorem resolvedAt_shape {reg : String → Option ComponentClass} {ns : Option String}
    {i : Nat} {component : EntryDict} {u : String} {st : StepKind}
    (h : resolvedAt reg ns i component = some (u, st)) :
    ∃ n comp' c, dictPop component "name" = some (n, comp') ∧ reg n = some c ∧
      meta c = some st ∧ u = uniqueName ns n i := by
  unfold resolvedAt at h
  cases hp : dictPop component "name" with
  | none => rw [hp] at h; simp at h
  | some p =>
    obtain ⟨n, comp'⟩ := p
    rw [hp] at h
    simp only [Option.bind_eq_bind, Option.some_bind] at h
    cases hr : reg n with
    | none => rw [hr] at h; simp at h
    | some c =>
      rw [hr] at h
      simp only [Option.some_bind] at h
      cases hm : meta c with
      | none => rw [hm] at h; simp at h
      | some st' =>
        rw [hm] at h
        injection h with h'
        injection h' with h1 h2
        exact ⟨n, comp', c, rfl, hr, by rw [hm, h2], h1.symm⟩

theorem skippedTrainTasks_spec {reg : String → Option ComponentClass}
    {ns : Option String} {pipeline : List EntryDict} {t : String} :
    t ∈ skippedTrainTasks reg ns pipeline ↔
    ∃ p ∈ pipeline.enum, ∃ u,
      resolvedAt reg ns p.1 p.2 = some (u, StepKind.train) ∧ t = "train_" ++ u := by
  unfold skippedTrainTasks
  rw [List.mem_filterMap]
  constructor
  · rintro ⟨p, hp, hf⟩
    refine ⟨p, hp, ?_⟩
    cases hr : resolvedAt reg ns p.1 p.2 with
    | none => rw [hr] at hf; exact Option.noConfusion hf
    | some q =>
      obtain ⟨u, st⟩ := q
      rw [hr] at hf
      cases st with
      | train => exact ⟨u, rfl, (Option.some.inj hf).symm⟩
      | process => exact Option.noConfusion hf
      | train_process => exact Option.noConfusion hf
  · rintro ⟨p, hp, u, hr, ht⟩
    exact ⟨p, hp, by rw [hr, ht]⟩

/-- The pipeline entries `X` (pure train) then `T` (process), compiled in
`only_process` mode with the adversarial external input task name
`train_X_0`. -/
def c4config : Config := ⟨[[("name", "X")], [("name", "T")]], []⟩

/-- The adversarial `only_process` compile of `c4config`. -/
def c4result : Option (Schema × String) :=
  nlu_config_to_train_graph_schema scenarioReg "p" c4config none (some "train_X_0") true

/-- C4 counterexample: the skipped pure-train entry `X` would have
produced the task `train_X_0`; with the external input task named exactly
`train_X_0` the surviving `process_T_1` task's `needs` references that
name, so the claim's "no surviving needs edge references a skipped
entry's task" fails as stated. -/
theorem C4_counterexample :
    c4result.isSome = true
    ∧ "train_X_0" ∈ skippedTrainTasks scenarioReg none c4config.pipeline
    ∧ "train_X_0" ∈ needsValues ((c4result.map Prod.fst).getD []) := by
  refine ⟨by decide, by decide, by decide⟩

/-- C4 amended: under `only_process`, no skipped pure-train entry
contributes any task to the returned schema, and — provided the external
input task (if any) is not itself named like a skipped entry's train
task — no surviving task's `needs` references a task a skipped entry
would have produced. -/
theorem C4_only_process_amended :
    ∀ reg project config ns input_task g out,
      nlu_config_to_train_graph_schema reg project config ns input_task true =
        some (g, out) →
      ∀ t ∈ skippedTrainTasks reg ns config.pipeline,
        t ∉ schemaKeys g ∧ (input_task ≠ some t → t ∉ needsValues g) := by
  intro reg project config ns input_task g out h t ht
  obtain ⟨p, hp, u, hres, htEq⟩ := skippedTrainTasks_spec.mp ht
  obtain ⟨n, comp', c, hpop, hreg, hmeta, huEq⟩ := resolvedAt_shape hres
  constructor
  · intro hk
    rcases nlu_keys h t hk with h' | ⟨q, hq, u', st', hres', hnskip, hcase⟩
    · rw [htEq] at h'
      exact load_data_ne_train u h'.symm
    · have hstne : st' ≠ StepKind.train := fun he => hnskip ⟨he, rfl⟩
      rcases hcase with ⟨hkt, _⟩ | ⟨hkt, _⟩
      · rw [htEq] at hkt
        have hu : u = u' := string_append_left_cancel hkt
        obtain ⟨n', comp'', c', hpop', hreg', hmeta', huEq'⟩ := resolvedAt_shape hres'
        rw [huEq, huEq'] at hu
        obtain ⟨hn, hidx⟩ := uniqueName_inj hu
        have hpq : p.2 = q.2 := by
          apply @enumFrom_index_inj EntryDict config.pipeline 0 p.1
          · exact hp
          · rw [hidx]; exact hq
        have : resolvedAt reg ns p.1 p.2 = some (u', st') := by
          rw [hpq, hidx]
          exact hres'
        rw [hres] at this
        injection this with h2
        injection h2 with h3 h4
        exact hstne h4.symm
      · rw [htEq] at hkt
        exact train_ne_process_str u _ hkt
  · intro hne hv
    rcases nlu_needs h t hv with h' | ⟨t0, hit, hte, hteq⟩ | ⟨q, hq, u', st', hres', hnskip, hcase⟩
    · rw [htEq] at h'
      exact load_data_ne_train u h'.symm
    · rw [← hteq] at hit
      exact hne hit
    · have hstne : st' ≠ StepKind.train := fun he => hnskip ⟨he, rfl⟩
      rcases hcase with ⟨hkt, hst'⟩ | ⟨hkt, _⟩
      · rw [htEq] at hkt
        have hu : u = u' := string_append_left_cancel hkt
        obtain ⟨n', comp'', c', hpop', hreg', hmeta', huEq'⟩ := resolvedAt_shape hres'
        rw [huEq, huEq'] at hu
        obtain ⟨hn, hidx⟩ := uniqueName_inj hu
        have hpq : p.2 = q.2 := by
          apply @enumFrom_index_inj EntryDict config.pipeline 0 p.1
          · exact hp
          · rw [hidx]; exact hq
        have : resolvedAt reg ns p.1 p.2 = some (u', st') := by
          rw [hpq, hidx]
          exact hres'
        rw [hres] at this
        injection this with h2
        injection h2 with h3 h4
        rw [hst'] at h4
        exact StepKind.noConfusion h4
      · rw [htEq] at hkt
        exact train_ne_process_str u _ hkt

/-- The same pipeline compiled in `only_process` mode with no external
input task. -/
def c4wres : Option (Schema × String) :=
  nlu_config_to_train_graph_schema scenarioReg "p" c4config none none true

/-- Witness for C4: the amended theorem applied to the concrete
`only_process` compile with no external input task. -/
theorem C4_witness :
    "train_X_0" ∉ schemaKeys ((c4wres.map Prod.fst).getD [])
    ∧ "train_X_0" ∉ needsValues ((c4wres.map Prod.fst).getD []) := by
  cases hc : c4wres with
  | none => exact absurd hc (by decide)
  | some r =>
    have h := C4_only_process_amended scenarioReg "p" c4config none none r.1 r.2
      (by rw [show nlu_config_to_train_graph_schema scenarioReg "p" c4config none none true
            = c4wres from rfl, hc]) "train_X_0" (by decide)
    exact ⟨by simpa using h.1, by simpa using h.2 (by simp)⟩

/-! ## Lookup lemmas -/

theorem schemaUpdate_singleton (g : Schema) (k : String) (s : TaskSpec) :
    schemaUpdate g [(k, s)] = setKey g k s := rfl

theorem lookupTask_setKey_self (g : Schema) (k : String) (s : TaskSpec) :
    lookupTask (setKey g k s) k = some s := by
  induction g with
  | nil => simp [setKey, lookupTask]
  | cons kv rest ih =>
    obtain ⟨a, b⟩ := kv
    simp only [setKey]
    split
    · simp [lookupTask]
    · rename_i hne
      simp only [lookupTask]
      rw [if_neg hne]
      exact ih

theorem schemaKeys_cons (a : String) (b : TaskSpec) (rest : Schema) :
    schemaKeys ((a, b) :: rest) = a :: schemaKeys rest := rfl

theorem lookupTask_setKey_ne (g : Schema) {k k' : String} (s : TaskSpec)
    (h : k' ≠ k) : lookupTask (setKey g k s) k' = lookupTask g k' := by
  induction g with
  | nil =>
    simp only [setKey, lookupTask]
    rw [if_neg (fun he => h he.symm)]
  | cons kv rest ih =>
    obtain ⟨a, b⟩ := kv
    simp only [setKey]
    split
    · rename_i he
      subst he
      simp only [lookupTask]
      rw [if_neg (fun he2 => h he2.symm), if_neg (fun he2 => h he2.symm)]
    · simp only [lookupTask]
      split
      · rfl
      · exact ih

theorem lookupTask_schemaUpdate_not_mem {g f : Schema} {k : String}
    (h : k ∉ schemaKeys f) : lookupTask (schemaUpdate g f) k = lookupTask g k := by
  induction f generalizing g with
  | nil => rfl
  | cons kv rest ih =>
    obtain ⟨a, b⟩ := kv
    show lookupTask (schemaUpdate (setKey g a b) rest) k = _
    have hk1 : k ∉ schemaKeys rest := fun hk =>
      h (by rw [schemaKeys_cons]; exact List.mem_cons_of_mem _ hk)
    have hk2 : k ≠ a := fun he =>
      h (by rw [schemaKeys_cons, he]; exact List.mem_cons_self _ _)
    rw [ih hk1]
    exact lookupTask_setKey_ne g b hk2

theorem lookupTask_fill_defaults (g : Schema) (k : String) :
    lookupTask (fill_defaults g) k =
      (lookupTask g k).map fun s => { s with persist := some (s.persist.getD true) } := by
  induction g with
  | nil => rfl
  | cons kv rest ih =>
    obtain ⟨a, b⟩ := kv
    show lookupTask ((a, _) :: fill_defaults rest) k = _
    simp only [lookupTask]
    split
    · rfl
    · exact ih

/-! ## Full characterization of the policy fold -/

/-- Whether some policy entry of the list resolves to a class whose train
signature declares `e2e_features`. -/
def polAnyE2E (polReg : String → Option PolicyClass) (ps : List EntryDict) : Bool :=
  ps.any fun p =>
    match dictPop p "name" with
    | some (n, _) =>
      match polReg n with
      | some pc => decide ("e2e_features" ∈ pc.trainParams)
      | none => false
    | none => false

/-- `k` is the unique task name of one of the enumerated policy
entries. -/
def PolKey (polReg : String → Option PolicyClass) (enum : List (Nat × EntryDict))
    (k : String) : Prop :=
  ∃ p ∈ enum, ∃ n rest pc, dictPop p.2 "name" = some (n, rest) ∧ polReg n = some pc ∧
    k = n ++ "_" ++ Nat.repr p.1

theorem policyFold_spec {polReg : String → Option PolicyClass} (ps : List EntryDict) :
    ∀ (i : Nat) (g : Schema) (names : List String) (e2e : Bool)
      (g' : Schema) (names' : List String) (e2e' : Bool),
      policyFold polReg i (g, names, e2e) ps = some (g', names', e2e') →
      (∀ (m : String) (j : Nat), i ≤ j → m ++ "_" ++ Nat.repr j ∉ schemaKeys g) →
      ((∀ k, k ∈ schemaKeys g' → k ∈ schemaKeys g ∨ PolKey polReg (ps.enumFrom i) k)
       ∧ (∀ k ∈ schemaKeys g, k ∈ schemaKeys g')
       ∧ e2e' = (e2e || polAnyE2E polReg ps)
       ∧ (∀ (m : String) (j : Nat), j < i →
           lookupTask g' (m ++ "_" ++ Nat.repr j) = lookupTask g (m ++ "_" ++ Nat.repr j))
       ∧ (∀ p ∈ ps.enumFrom i, ∀ n rest pc,
           dictPop p.2 "name" = some (n, rest) → polReg n = some pc →
           lookupTask g' (n ++ "_" ++ Nat.repr p.1) = some (policySpecOf pc rest))) := by
  induction ps with
  | nil =>
    intro i g names e2e g' names' e2e' h hfresh
    unfold policyFold at h
    injection h with h'
    injection h' with h1 h2
    injection h2 with h3 h4
    subst h1
    subst h4
    refine ⟨fun k hk => Or.inl hk, fun k hk => hk, by simp [polAnyE2E],
      fun m j _ => rfl, ?_⟩
    intro p hp
    simp [List.enumFrom] at hp
  | cons policy rest ih =>
    intro i g names e2e g' names' e2e' h hfresh
    unfold policyFold at h
    cases hs : policyStep polReg i (g, names, e2e) policy with
    | none => rw [hs] at h; simp at h
    | some acc1 =>
      rw [hs] at h
      simp only [Option.bind_eq_bind, Option.some_bind] at h
      obtain ⟨n, restd, pc, hpop, hreg, hacc⟩ := policyStep_spec hs
      subst hacc
      rw [schemaUpdate_singleton] at h
      have hfresh1 : ∀ (m : String) (j : Nat), i + 1 ≤ j →
          m ++ "_" ++ Nat.repr j ∉ schemaKeys (setKey g (n ++ "_" ++ Nat.repr i)
            (policySpecOf pc restd)) := by
        intro m j hij hk
        rcases mem_schemaKeys_setKey.mp hk with h' | h'
        · exact hfresh m j (by omega) h'
        · obtain ⟨-, hj⟩ := underscore_repr_inj h'
          omega
      obtain ⟨hkeys, hmono, he2e, hlookupOld, hlookupNew⟩ :=
        ih (i + 1) _ _ _ g' names' e2e' h hfresh1
      have henum : (policy :: rest).enumFrom i = (i, policy) :: rest.enumFrom (i + 1) := rfl
      refine ⟨?_, ?_, ?_, ?_, ?_⟩
      · intro k hk
        rcases hkeys k hk with h' | h'
        · rcases mem_schemaKeys_setKey.mp h' with h'' | h''
          · exact Or.inl h''
          · exact Or.inr ⟨(i, policy), by rw [henum]; exact List.mem_cons_self _ _,
              n, restd, pc, hpop, hreg, h''⟩
        · obtain ⟨q, hq, rest2⟩ := h'
          exact Or.inr ⟨q, by rw [henum]; exact List.mem_cons_of_mem _ hq, rest2⟩
      · intro k hk
        exact hmono k (mem_schemaKeys_setKey.mpr (Or.inl hk))
      · rw [he2e]
        have hany : polAnyE2E polReg (policy :: rest) =
            (decide ("e2e_features" ∈ pc.trainParams) || polAnyE2E polReg rest) := by
          unfold polAnyE2E
          rw [List.any_cons]
          simp only [hpop, hreg]
        rw [hany]
        by_cases hmem : "e2e_features" ∈ pc.trainParams
        · simp [hmem]
        · simp [hmem]
      · intro m j hj
        rw [hlookupOld m j (by omega)]
        exact lookupTask_setKey_ne g _ (by
          intro he
          obtain ⟨-, hij⟩ := underscore_repr_inj he
          omega)
      · intro p hp n' rest' pc' hpop' hreg'
        rw [henum] at hp
        rcases List.mem_cons.mp hp with h' | h'
        · subst h'
          rw [hpop] at hpop'
          injection hpop' with hpp
          injection hpp with hn hrest
          subst hn
          subst hrest
          rw [hreg] at hreg'
          injection hreg' with hpc
          subst hpc
          show lookupTask g' (n ++ "_" ++ Nat.repr i) = some (policySpecOf pc restd)
          rw [hlookupOld n i (by omega)]
          exact lookupTask_setKey_self g _ _
        · exact hlookupNew p h' n' rest' pc' hpop' hreg'

/-! ## Fixed task names are never generated indexed names -/

theorem load_domain_ne_idx : ∀ (p : String) (j : Nat),
    "load_domain" ≠ p ++ "_" ++ Nat.repr j :=
  const_ne_name_idx "load_domain" ("load").data ("domain").data rfl (by decide) (by decide)

theorem load_stories_ne_idx : ∀ (p : String) (j : Nat),
    "load_stories" ≠ p ++ "_" ++ Nat.repr j :=
  const_ne_name_idx "load_stories" ("load").data ("stories").data rfl (by decide) (by decide)

theorem generate_trackers_ne_idx : ∀ (p : String) (j : Nat),
    "generate_trackers" ≠ p ++ "_" ++ Nat.repr j :=
  const_ne_name_idx "generate_trackers" ("generate").data ("trackers").data rfl
    (by decide) (by decide)

theorem load_data_ne_idx : ∀ (p : String) (j : Nat),
    "load_data" ≠ p ++ "_" ++ Nat.repr j :=
  const_ne_name_idx "load_data" ("load").data ("data").data rfl (by decide) (by decide)

theorem convert_stories_ne_idx : ∀ (p : String) (j : Nat),
    "convert_stories_for_nlu" ≠ p ++ "_" ++ Nat.repr j :=
  const_ne_name_idx "convert_stories_for_nlu" ("convert_stories_for").data ("nlu").data rfl
    (by decide) (by decide)

theorem create_e2e_ne_idx : ∀ (p : String) (j : Nat),
    "create_e2e_lookup" ≠ p ++ "_" ++ Nat.repr j :=
  const_ne_name_idx "create_e2e_lookup" ("create_e2e").data ("lookup").data rfl
    (by decide) (by decide)

theorem convert_ne_train (a : String) : "convert_stories_for_nlu" ≠ "train_" ++ a :=
  firstChar_ne rfl rfl (by decide)

theorem convert_ne_process (a : String) : "convert_stories_for_nlu" ≠ "process_" ++ a :=
  firstChar_ne rfl rfl (by decide)

theorem create_ne_train (a : String) : "create_e2e_lookup" ≠ "train_" ++ a :=
  firstChar_ne rfl rfl (by decide)

theorem create_ne_process (a : String) : "create_e2e_lookup" ≠ "process_" ++ a :=
  firstChar_ne rfl rfl (by decide)

/-- No generated indexed name is a key of the fixed Core base schema. -/
theorem coreBase_fresh (project : String) :
    ∀ (m : String) (j : Nat), 0 ≤ j →
      m ++ "_" ++ Nat.repr j ∉ schemaKeys (coreBase project) := by
  intro m j _ hk
  rw [schemaKeys_coreBase] at hk
  simp at hk
  rcases hk with h | h | h
  · exact load_domain_ne_idx m j h.symm
  · exact load_stories_ne_idx m j h.symm
  · exact generate_trackers_ne_idx m j h.symm

/-! ## C5: E2E fan-out -/

theorem policySpec_needs_iff (pc : PolicyClass) (rest : EntryDict) :
    (("e2e_features", "create_e2e_lookup") ∈ (policySpecOf pc rest).needs ↔
      "e2e_features" ∈ pc.trainParams) := by
  unfold policySpecOf
  by_cases hmem : "e2e_features" ∈ pc.trainParams
  · simp [hmem]
  · simp [hmem]

/-- C5 amended: when no policy's train signature declares `e2e_features`,
neither auxiliary task is emitted; when some policy declares it, the
schema contains `convert_stories_for_nlu` (needing the story graph) and
`create_e2e_lookup` fed by the `only_process` NLU sub-compile's output
task; and — provided the policy names are hygienic (no `train_`/
`process_` shaped names, which could collide with the sub-compile's
tasks) — each policy's final task has the
`e2e_features -> create_e2e_lookup` needs entry exactly when its class
declares `e2e_features`. -/
theorem C5_e2e_fanout_amended :
    ∀ reg polReg project config g outs,
      core_config_to_train_graph_schema reg polReg project config = some (g, outs) →
      ((polAnyE2E polReg config.policies = false →
         "convert_stories_for_nlu" ∉ schemaKeys g ∧ "create_e2e_lookup" ∉ schemaKeys g)
       ∧ (polAnyE2E polReg config.policies = true →
         lookupTask g "convert_stories_for_nlu" = some convertStoriesTask
         ∧ ∃ ng nout,
             nlu_config_to_train_graph_schema reg project config (some "core")
               (some "convert_stories_for_nlu") true = some (ng, nout)
             ∧ lookupTask g "create_e2e_lookup" = some (createE2ELookupTask nout))
       ∧ ((∀ p ∈ config.policies.enumFrom 0, ∀ n rest,
            dictPop p.2 "name" = some (n, rest) → goodPolicyName n) →
          ∀ p ∈ config.policies.enumFrom 0, ∀ n rest pc,
            dictPop p.2 "name" = some (n, rest) → polReg n = some pc →
            lookupTask g (n ++ "_" ++ Nat.repr p.1) =
              some { policySpecOf pc rest with persist := some true }
            ∧ (("e2e_features", "create_e2e_lookup") ∈ (policySpecOf pc rest).needs ↔
                "e2e_features" ∈ pc.trainParams))) := by
  intro reg polReg project config g outs h
  unfold core_config_to_train_graph_schema at h
  cases hf : policyFold polReg 0 (coreBase project, [], false) config.policies with
  | none => rw [hf] at h; exact Option.noConfusion h
  | some acc =>
    obtain ⟨g1, names, e2e⟩ := acc
    rw [hf] at h
    obtain ⟨hkeys1, hmono1, he2e, hlookupOld, hlookupPol⟩ :=
      policyFold_spec config.policies 0 (coreBase project) [] false g1 names e2e hf
        (coreBase_fresh project)
    rw [Bool.false_or] at he2e
    subst he2e
    cases hpa : polAnyE2E polReg config.policies with
    | false =>
      rw [hpa] at h
      have h' : (fill_defaults g1, names) = (g, outs) := Option.some.inj h
      injection h' with h1 h2
      refine ⟨?_, ?_, ?_⟩
      · intro _
        constructor
        · intro hk
          rw [← h1, schemaKeys_fill_defaults] at hk
          rcases hkeys1 _ hk with h' | ⟨q, hq, n, rest, pc, hpop, hreg, hkEq⟩
          · rw [schemaKeys_coreBase] at h'
            simp at h'
          · exact convert_stories_ne_idx n q.1 hkEq
        · intro hk
          rw [← h1, schemaKeys_fill_defaults] at hk
          rcases hkeys1 _ hk with h' | ⟨q, hq, n, rest, pc, hpop, hreg, hkEq⟩
          · rw [schemaKeys_coreBase] at h'
            simp at h'
          · exact create_e2e_ne_idx n q.1 hkEq
      · intro habs
        exact Bool.noConfusion habs
      · intro hyg p hp n rest pc hpop hreg
        refine ⟨?_, policySpec_needs_iff pc rest⟩
        rw [← h1, lookupTask_fill_defaults, hlookupPol p hp n rest pc hpop hreg]
        rfl
    | true =>
      rw [hpa] at h
      replace h : (match coreMaybeE2E reg project config true g1 with
        | some core_train_graph2 => some (fill_defaults core_train_graph2, names)
        | none => none) = some (g, outs) := h
      cases hm : coreMaybeE2E reg project config true g1 with
      | none => rw [hm] at h; exact Option.noConfusion h
      | some g2 =>
        rw [hm] at h
        have h' : (fill_defaults g2, names) = (g, outs) := Option.some.inj h
        injection h' with h1 h2
        obtain ⟨ng, nout, hn, hg2⟩ := coreMaybeE2E_true_spec hm
        subst hg2
        have hngNoConv : "convert_stories_for_nlu" ∉ schemaKeys ng := by
          intro hk
          rcases nlu_keys hn _ hk with h' | ⟨q, hq, u, st, _, _, hcase⟩
          · exact absurd h' (by decide)
          · rcases hcase with ⟨hkEq, _⟩ | ⟨hkEq, _⟩
            · exact convert_ne_train u hkEq
            · exact convert_ne_process u hkEq
        refine ⟨?_, ?_, ?_⟩
        · intro habs
          exact Bool.noConfusion habs
        · intro _
          constructor
          · rw [← h1, lookupTask_fill_defaults]
            rw [lookupTask_setKey_ne _ _ (by decide)]
            rw [lookupTask_schemaUpdate_not_mem hngNoConv]
            rw [lookupTask_setKey_self]
            rfl
          · refine ⟨ng, nout, hn, ?_⟩
            rw [← h1, lookupTask_fill_defaults]
            rw [lookupTask_setKey_self]
            rfl
        · intro hyg p hp n rest pc hpop hreg
          refine ⟨?_, policySpec_needs_iff pc rest⟩
          have hgood : goodPolicyName n := hyg p hp n rest hpop
          have hnotng : n ++ "_" ++ Nat.repr p.1 ∉ schemaKeys ng := by
            intro hk
            rcases nlu_keys hn _ hk with h' | ⟨q, hq, u, st, _, _, hcase⟩
            · exact load_data_ne_idx n p.1 h'.symm
            · rcases hcase with ⟨hkEq, _⟩ | ⟨hkEq, _⟩
              · exact goodPolicyName_ne_train hgood p.1 u hkEq
              · exact goodPolicyName_ne_process hgood p.1 u hkEq
          rw [← h1, lookupTask_fill_defaults]
          rw [lookupTask_setKey_ne _ _ (fun he => create_e2e_ne_idx n p.1 he.symm)]
          rw [lookupTask_schemaUpdate_not_mem hnotng]
          rw [lookupTask_setKey_ne _ _ (fun he => convert_stories_ne_idx n p.1 he.symm)]
          rw [hlookupPol p hp n rest pc hpop hreg]
          rfl

/-- Policy registry for the C5 counterexample: the policy named
`train_core_F` declares `e2e_features`. -/
def c5polReg : String → Option PolicyClass := fun n =>
  if n = "train_core_F" then
    some { clsName := "TCF", trainParams := ["training_trackers", "domain", "e2e_features"] }
  else scenarioPolReg n

/-- Config whose single policy is named so that its task name collides
with the E2E sub-compile's `train_core_F_0` task (`F` resolves to the
train-and-process `CountVectorsFeaturizer`). -/
def c5config : Config := ⟨[[("name", "F")]], [[("name", "train_core_F")]]⟩

/-- The colliding Core compile. -/
def c5result : Option (Schema × List String) :=
  core_config_to_train_graph_schema scenarioReg c5polReg "p" c5config

/-- C5 counterexample: the single policy declares `e2e_features`, yet in
the final schema its task (overwritten by the E2E sub-compile's
identically named `train_core_F_0` component train task) has no
`e2e_features -> create_e2e_lookup` needs entry — refuting the claim's
"exactly the policies declaring e2e_features have the needs entry". -/
theorem C5_counterexample :
    c5result.isSome = true
    ∧ polAnyE2E c5polReg c5config.policies = true
    ∧ (lookupTask ((c5result.map Prod.fst).getD []) "train_core_F_0").map TaskSpec.needs =
        some [("training_data", "convert_stories_for_nlu")] := by
  refine ⟨by decide, by decide, by decide⟩

/-- Config for the C5 witness: one process-capable component and policies
`P2` (declares `e2e_features`) then `P1` (does not). -/
def c5wconfig : Config := ⟨[[("name", "T")]], [[("name", "P2")], [("name", "P1")]]⟩

/-- The witness Core compile. -/
def c5wres : Option (Schema × List String) :=
  core_config_to_train_graph_schema scenarioReg scenarioPolReg "p" c5wconfig

/-- Witness for C5: the amended theorem applied to a concrete E2E-enabled
Core compile. -/
theorem C5_witness :
    lookupTask ((c5wres.map Prod.fst).getD []) "convert_stories_for_nlu" =
      some convertStoriesTask := by
  cases hc : c5wres with
  | none => exact absurd hc (by decide)
  | some r =>
    have h := C5_e2e_fanout_amended scenarioReg scenarioPolReg "p" c5wconfig r.1 r.2
      (by rw [show core_config_to_train_graph_schema scenarioReg scenarioPolReg "p"
            c5wconfig = c5wres from rfl, hc])
    have h2 := (h.2.1 (by decide)).1
    simpa using h2

/-! ## C8: merge of Core and NLU schemas -/

theorem string_append_assoc (a b c : String) : (a ++ b) ++ c = a ++ (b ++ c) := by
  apply String.ext_iff.mpr
  rw [String.data_append, String.data_append, String.data_append, String.data_append]
  exact List.append_assoc _ _ _

/-- The namespaced unique name is itself of `<name>_<index>` shape. -/
theorem uniqueName_core_shape (s n : String) (hs : s ≠ "") (i : Nat) :
    uniqueName (some s) n i = (s ++ "_" ++ n) ++ "_" ++ Nat.repr i := by
  show (if s = "" then n ++ "_" ++ Nat.repr i
        else s ++ "_" ++ (n ++ "_" ++ Nat.repr i)) = _
  rw [if_neg hs]
  apply String.ext_iff.mpr
  simp only [String.data_append, List.append_assoc]

/-- Keys of an NLU compile with a truthy external input task are exactly
fragment task names. -/
theorem nlu_keys_input {reg : String → Option ComponentClass} {project : String}
    {config : Config} {ns : Option String} {t : String} {op : Bool}
    {g : Schema} {out : String} (ht : t ≠ "")
    (h : nlu_config_to_train_graph_schema reg project config ns (some t) op =
      some (g, out)) :
    ∀ k, k ∈ schemaKeys g → FragKey reg ns op (config.pipeline.enumFrom 0) k := by
  unfold nlu_config_to_train_graph_schema at h
  have hinit : nluInit project (some t) = ([], t) := by
    unfold nluInit
    simp [ht]
  rw [hinit] at h
  intro k hk
  rcases (nluTail_keys h).1 k hk with h' | h'
  · exact absurd h' (by simp [schemaKeys])
  · exact h'

/-- Keys of a Core compile: the three fixed base tasks, a policy task, one
of the two E2E auxiliary tasks, or a key of the E2E NLU sub-compile. -/
theorem core_keys {reg : String → Option ComponentClass}
    {polReg : String → Option PolicyClass} {project : String} {config : Config}
    {g : Schema} {outs : List String}
    (h : core_config_to_train_graph_schema reg polReg project config = some (g, outs)) :
    ∀ k, k ∈ schemaKeys g →
      k ∈ ["load_domain", "load_stories", "generate_trackers"]
      ∨ PolKey polReg (config.policies.enumFrom 0) k
      ∨ k = "convert_stories_for_nlu" ∨ k = "create_e2e_lookup"
      ∨ (∃ ng nout, nlu_config_to_train_graph_schema reg project config (some "core")
           (some "convert_stories_for_nlu") true = some (ng, nout)
           ∧ k ∈ schemaKeys ng) := by
  unfold core_config_to_train_graph_schema at h
  cases hf : policyFold polReg 0 (coreBase project, [], false) config.policies with
  | none => rw [hf] at h; exact Option.noConfusion h
  | some acc =>
    obtain ⟨g1, names, e2e⟩ := acc
    rw [hf] at h
    obtain ⟨hkeys1, hmono1, he2e, hlookupOld, hlookupPol⟩ :=
      policyFold_spec config.policies 0 (coreBase project) [] false g1 names e2e hf
        (coreBase_fresh project)
    have hbase : ∀ k, k ∈ schemaKeys g1 →
        k ∈ ["load_domain", "load_stories", "generate_trackers"]
        ∨ PolKey polReg (config.policies.enumFrom 0) k := by
      intro k hk
      rcases hkeys1 k hk with h' | h'
      · exact Or.inl (by rw [schemaKeys_coreBase] at h'; exact h')
      · exact Or.inr h'
    cases e2e with
    | false =>
      have h' : (fill_defaults g1, names) = (g, outs) := Option.some.inj h
      injection h' with h1 h2
      intro k hk
      rw [← h1, schemaKeys_fill_defaults] at hk
      rcases hbase k hk with h' | h'
      · exact Or.inl h'
      · exact Or.inr (Or.inl h')
    | true =>
      replace h : (match coreMaybeE2E reg project config true g1 with
        | some core_train_graph2 => some (fill_defaults core_train_graph2, names)
        | none => none) = some (g, outs) := h
      cases hm : coreMaybeE2E reg project config true g1 with
      | none => rw [hm] at h; exact Option.noConfusion h
      | some g2 =>
        rw [hm] at h
        have h' : (fill_defaults g2, names) = (g, outs) := Option.some.inj h
        injection h' with h1 h2
        obtain ⟨ng, nout, hn, hg2⟩ := coreMaybeE2E_true_spec hm
        subst hg2
        intro k hk
        rw [← h1, schemaKeys_fill_defaults] at hk
        rcases mem_schemaKeys_setKey.mp hk with hk' | hk'
        · rcases mem_schemaKeys_schemaUpdate.mp hk' with hk'' | hk''
          · rcases mem_schemaKeys_setKey.mp hk'' with hk3 | hk3
            · rcases hbase k hk3 with h' | h'
              · exact Or.inl h'
              · exact Or.inr (Or.inl h')
            · exact Or.inr (Or.inr (Or.inl hk3))
          · exact Or.inr (Or.inr (Or.inr (Or.inr ⟨ng, nout, hn, hk''⟩)))
        · exact Or.inr (Or.inr (Or.inr (Or.inl hk')))

theorem uniqueName_none (n : String) (i : Nat) :
    uniqueName none n i = n ++ "_" ++ Nat.repr i := rfl

/-- A task name generated by the `core`-namespaced E2E sub-compile never
equals a task name generated by the top-level (un-namespaced) NLU compile
of the same pipeline. -/
theorem sub_top_name_ne {reg : String → Option ComponentClass}
    {pipeline : List EntryDict} {p q : Nat × EntryDict}
    (hp : p ∈ pipeline.enumFrom 0) (hq : q ∈ pipeline.enumFrom 0)
    {us ut : String} {sts stt : StepKind}
    (hrs : resolvedAt reg (some "core") p.1 p.2 = some (us, sts))
    (hrt : resolvedAt reg none q.1 q.2 = some (ut, stt)) :
    us ≠ ut := by
  intro he
  obtain ⟨ns_, cs_, ccs, hpops, hregs, hmetas, hus⟩ := resolvedAt_shape hrs
  obtain ⟨nt_, ct_, cct, hpopt, hregt, hmetat, hut⟩ := resolvedAt_shape hrt
  rw [hus, hut] at he
  rw [uniqueName_core_shape "core" ns_ (by decide) p.1] at he
  rw [uniqueName_none nt_ q.1] at he
  obtain ⟨hname, hidx⟩ := underscore_repr_inj he
  have hq2 : (p.1, q.2) ∈ pipeline.enumFrom 0 := by rw [hidx]; exact hq
  have hpq : p.2 = q.2 := enumFrom_index_inj hp hq2
  rw [hpq, hpopt] at hpops
  injection hpops with hpp
  injection hpp with hnn _
  rw [← hnn] at hname
  exact string_prefix_append_ne (by decide) hname

/-- C8 amended: the top-level compile returns exactly the union (Python
dict-merge) of the independently run Core and NLU compiles, with the
output list being the Core policy task names followed by the NLU output
task name; and the key sets of the two schemas are disjoint provided
every policy name is hygienic (not shaped like a step-builder prefix). -/
theorem C8_merge_amended :
    (∀ reg polReg read_yaml project configText ng nout cg couts,
       nlu_config_to_train_graph_schema reg project (read_yaml configText)
         none none false = some (ng, nout) →
       core_config_to_train_graph_schema reg polReg project (read_yaml configText) =
         some (cg, couts) →
       old_config_to_graph_schema reg polReg read_yaml project configText =
         some (schemaUpdate cg ng, couts ++ [nout]))
    ∧ (∀ reg polReg read_yaml project configText g outs,
       old_config_to_graph_schema reg polReg read_yaml project configText =
         some (g, outs) →
       ∃ ng nout cg couts,
         nlu_config_to_train_graph_schema reg project (read_yaml configText)
           none none false = some (ng, nout)
         ∧ core_config_to_train_graph_schema reg polReg project (read_yaml configText) =
             some (cg, couts)
         ∧ g = schemaUpdate cg ng ∧ outs = couts ++ [nout])
    ∧ (∀ reg polReg project config ng nout cg couts,
       nlu_config_to_train_graph_schema reg project config none none false =
         some (ng, nout) →
       core_config_to_train_graph_schema reg polReg project config = some (cg, couts) →
       (∀ p ∈ config.policies.enumFrom 0, ∀ n rest,
         dictPop p.2 "name" = some (n, rest) → goodPolicyName n) →
       ∀ k ∈ schemaKeys cg, k ∉ schemaKeys ng) := by
  refine ⟨?_, ?_, ?_⟩
  · intro reg polReg read_yaml project configText ng nout cg couts hn hc
    unfold old_config_to_graph_schema
    rw [hn, hc]
  · intro reg polReg read_yaml project configText g outs h
    unfold old_config_to_graph_schema at h
    cases hn : nlu_config_to_train_graph_schema reg project (read_yaml configText)
        none none false with
    | none => rw [hn] at h; exact Option.noConfusion h
    | some pn =>
      obtain ⟨ng, nout⟩ := pn
      rw [hn] at h
      cases hc : core_config_to_train_graph_schema reg polReg project
          (read_yaml configText) with
      | none => rw [hc] at h; exact Option.noConfusion h
      | some pc =>
        obtain ⟨cg, couts⟩ := pc
        rw [hc] at h
        have h' := Option.some.inj h
        injection h' with h1 h2
        exact ⟨ng, nout, cg, couts, rfl, rfl, h1.symm, h2.symm⟩
  · intro reg polReg project config ng nout cg couts hn hc hyg k hkc hkn
    have htop := nlu_keys hn k hkn
    have hcore := core_keys hc k hkc
    rcases htop with hld | ⟨q, hq, ut, stt, hrt, hnskipT, hcaseT⟩
    · -- k = "load_data"
      subst hld
      rcases hcore with hbase | ⟨p, hp, n, rest, pc, hpop, hreg2, hkeq⟩ | hconv | hcreate
        | ⟨sng, snout, hsn, hksub⟩
      · exact absurd hbase (by decide)
      · exact load_data_ne_idx n p.1 hkeq
      · exact absurd hconv (by decide)
      · exact absurd hcreate (by decide)
      · rcases nlu_keys_input (by decide) hsn _ hksub with
          ⟨p, hp, us, sts, hrs, hnskipS, hcaseS⟩
        rcases hcaseS with ⟨hkeq, _⟩ | ⟨hkeq, _⟩
        · exact load_data_ne_train us hkeq
        · exact load_data_ne_process us hkeq
    · -- k is a top-level fragment task name
      have hkT : k = "train_" ++ ut ∨ k = "process_" ++ ut := by
        rcases hcaseT with ⟨h', _⟩ | ⟨h', _⟩
        · exact Or.inl h'
        · exact Or.inr h'
      rcases hcore with hbase | ⟨p, hp, n, rest, pc, hpop, hreg2, hkeq⟩ | hconv | hcreate
        | ⟨sng, snout, hsn, hksub⟩
      · simp only [List.mem_cons, List.mem_singleton] at hbase
        rcases hbase with rfl | rfl | h0
        · rcases hkT with h' | h'
          · exact absurd h' (firstChar_ne rfl rfl (by decide))
          · exact absurd h' (firstChar_ne rfl rfl (by decide))
        · rcases hkT with h' | h'
          · exact absurd h' (firstChar_ne rfl rfl (by decide))
          · exact absurd h' (firstChar_ne rfl rfl (by decide))
        · simp at h0
          subst h0
          rcases hkT with h' | h'
          · exact absurd h' (firstChar_ne rfl rfl (by decide))
          · exact absurd h' (firstChar_ne rfl rfl (by decide))
      · have good := hyg p hp n rest hpop
        rw [hkeq] at hkT
        rcases hkT with h' | h'
        · exact goodPolicyName_ne_train good p.1 ut h'
        · exact goodPolicyName_ne_process good p.1 ut h'
      · rw [hconv] at hkT
        rcases hkT with h' | h'
        · exact convert_ne_train ut h'
        · exact convert_ne_process ut h'
      · rw [hcreate] at hkT
        rcases hkT with h' | h'
        · exact create_ne_train ut h'
        · exact create_ne_process ut h'
      · rcases nlu_keys_input (by decide) hsn _ hksub with
          ⟨p, hp, us, sts, hrs, hnskipS, hcaseS⟩
        have hne := sub_top_name_ne hp hq hrs hrt
        have hkS : k = "train_" ++ us ∨ k = "process_" ++ us := by
          rcases hcaseS with ⟨h', _⟩ | ⟨h', _⟩
          · exact Or.inl h'
          · exact Or.inr h'
        rcases hkS with h1 | h1 <;> rcases hkT with h2 | h2
        · rw [h1] at h2
          exact hne (string_append_left_cancel h2)
        · rw [h1] at h2
          exact train_ne_process_str us ut h2
        · rw [h1] at h2
          exact train_ne_process_str ut us h2.symm
        · rw [h1] at h2
          exact hne (string_append_left_cancel h2)

/-- Policy registry for the C8 counterexample: a policy named `train_F`. -/
def c8polReg : String → Option PolicyClass := fun n =>
  if n = "train_F" then some { clsName := "TF", trainParams := ["training_trackers", "domain"] }
  else scenarioPolReg n

/-- Config whose policy task name `train_F_0` collides with the top-level
NLU compile's `train_F_0` task. -/
def c8config : Config := ⟨[[("name", "F")]], [[("name", "train_F")]]⟩

/-- The two independent compiles of the colliding config. -/
def c8nlu : Option (Schema × String) :=
  nlu_config_to_train_graph_schema scenarioReg "p" c8config none none false

/-- The Core compile of the colliding config. -/
def c8core : Option (Schema × List String) :=
  core_config_to_train_graph_schema scenarioReg c8polReg "p" c8config

/-- C8 counterexample: with a policy named `train_F` and a pipeline
component `F`, both independent compiles succeed and both schemas contain
the key `train_F_0`, so their key sets are not disjoint as the claim
states. -/
theorem C8_counterexample :
    c8nlu.isSome = true
    ∧ c8core.isSome = true
    ∧ "train_F_0" ∈ schemaKeys ((c8core.map Prod.fst).getD [])
    ∧ "train_F_0" ∈ schemaKeys ((c8nlu.map Prod.fst).getD []) := by
  refine ⟨by decide, by decide, by decide, by decide⟩

/-- The `read_yaml` collaborator instance used by the C8 witness. -/
def c8wread : String → Config := fun _ => ⟨[[("name", "T")]], [[("name", "P1")]]⟩

/-- The independent NLU compile of the witness config. -/
def c8wnlu : Option (Schema × String) :=
  nlu_config_to_train_graph_schema scenarioReg "p" (c8wread "cfg") none none false

/-- The independent Core compile of the witness config. -/
def c8wcore : Option (Schema × List String) :=
  core_config_to_train_graph_schema scenarioReg scenarioPolReg "p" (c8wread "cfg")

/-- Witness for C8: the amended merge equation applied to a concrete
config. -/
theorem C8_witness :
    old_config_to_graph_schema scenarioReg scenarioPolReg c8wread "p" "cfg" =
      some (schemaUpdate ((c8wcore.map Prod.fst).getD []) ((c8wnlu.map Prod.fst).getD []),
            ((c8wcore.map Prod.snd).getD []) ++ [((c8wnlu.map Prod.snd).getD "")]) := by
  cases hn : c8wnlu with
  | none => exact absurd hn (by decide)
  | some rn =>
    cases hc : c8wcore with
    | none => exact absurd hc (by decide)
    | some rc =>
      have h := C8_merge_amended.1 scenarioReg scenarioPolReg c8wread "p" "cfg"
        rn.1 rn.2 rc.1 rc.2
        (by rw [show nlu_config_to_train_graph_schema scenarioReg "p" (c8wread "cfg")
              none none false = c8wnlu from rfl, hn])
        (by rw [show core_config_to_train_graph_schema scenarioReg scenarioPolReg "p"
              (c8wread "cfg") = c8wcore from rfl, hc])
      simpa using h

/-! ## C9: a heap model of the entry dicts

Python mutates the pipeline/policy entry dictionaries through
`component.pop("name")` — but only after `deepcopy(config["pipeline"])` /
`deepcopy(config["policies"])` (lines 122 and 178, and the sub-compile at
line 235 passes the original `config` object). To settle the
no-input-mutation claim, this section re-renders the two compilers over an
explicit store of mutable entry dicts: the config holds addresses, the
deep copy allocates fresh cells, and each `pop` writes the popped dict
back to its (copied) cell. -/

/-- A store of mutable entry-dict objects; an address is an index and
allocation appends. -/
structure Store where
  dicts : List EntryDict
deriving DecidableEq, Repr

/-- Dereference an address (`none` for a dangling reference). -/
def Store.read (st : Store) (a : Nat) : Option EntryDict := st.dicts[a]?

/-- Overwrite the cell at an address (no-op when dangling). -/
def Store.write (st : Store) (a : Nat) (d : EntryDict) : Store := ⟨st.dicts.set a d⟩

/-- Allocate a fresh cell. -/
def Store.alloc (st : Store) (d : EntryDict) : Store × Nat :=
  (⟨st.dicts ++ [d]⟩, st.dicts.length)

/-- A config object holding references to its pipeline and policy entry
dicts. -/
structure ConfigRefs where
  pipeline : List Nat
  policies : List Nat
deriving DecidableEq, Repr

/-- Dereference a list of addresses. -/
def readAll (st : Store) : List Nat → Option (List EntryDict)
  | [] => some []
  | a :: as => do
    let d ← st.read a
    let ds ← readAll st as
    pure (d :: ds)

/-- `deepcopy` of a list of entry dicts: allocate fresh copies, returning
their addresses. -/
def allocAll (st : Store) : List EntryDict → Store × List Nat
  | [] => (st, [])
  | d :: ds =>
    let (st1, a) := st.alloc d
    let (st2, as) := allocAll st1 ds
    (st2, a :: as)

theorem Store.read_write_ne (st : Store) {a b : Nat} (d : EntryDict) (h : b ≠ a) :
    (st.write a d).read b = st.read b := by
  unfold Store.read Store.write
  exact List.getElem?_set_ne (fun he => h he.symm)

theorem Store.length_write (st : Store) (a : Nat) (d : EntryDict) :
    (st.write a d).dicts.length = st.dicts.length := List.length_set _ _ _

theorem readAll_congr {st st' : Store} (as : List Nat)
    (h : ∀ b ∈ as, st'.read b = st.read b) : readAll st' as = readAll st as := by
  induction as with
  | nil => rfl
  | cons a rest ih =>
    show (do
      let d ← st'.read a
      let ds ← readAll st' rest
      pure (d :: ds) : Option (List EntryDict)) = _
    rw [h a (List.mem_cons_self _ _), ih (fun b hb => h b (List.mem_cons_of_mem _ hb))]
    rfl

theorem readAll_valid {st : Store} {as : List Nat} {ds : List EntryDict}
    (h : readAll st as = some ds) : ∀ a ∈ as, a < st.dicts.length := by
  induction as generalizing ds with
  | nil => intro a ha; simp at ha
  | cons a rest ih =>
    intro b hb
    unfold readAll at h
    cases hr : st.read a with
    | none => rw [hr] at h; simp at h
    | some d =>
      rw [hr] at h
      simp only [Option.bind_eq_bind, Option.some_bind] at h
      cases hrs : readAll st rest with
      | none => rw [hrs] at h; simp at h
      | some ds' =>
        rcases List.mem_cons.mp hb with h' | h'
        · subst h'
          have := List.getElem?_eq_some.mp hr
          exact this.1
        · exact ih hrs b h'

theorem allocAll_dicts (ds : List EntryDict) :
    ∀ st : Store, ((allocAll st ds).1).dicts = st.dicts ++ ds := by
  induction ds with
  | nil => intro st; simp [allocAll]
  | cons d rest ih =>
    intro st
    show ((allocAll ⟨st.dicts ++ [d]⟩ rest).1).dicts = _
    rw [ih ⟨st.dicts ++ [d]⟩]
    simp

theorem allocAll_refs (ds : List EntryDict) :
    ∀ st : Store, (allocAll st ds).2 = List.range' st.dicts.length ds.length := by
  induction ds with
  | nil => intro st; simp [allocAll]
  | cons d rest ih =>
    intro st
    show st.dicts.length :: (allocAll ⟨st.dicts ++ [d]⟩ rest).2 = _
    rw [ih ⟨st.dicts ++ [d]⟩]
    show _ = List.range' st.dicts.length (rest.length + 1)
    rw [List.range'_succ]
    congr 1
    simp

theorem allocAll_length (ds : List EntryDict) (st : Store) :
    ((allocAll st ds).1).dicts.length = st.dicts.length + ds.length := by
  rw [allocAll_dicts]
  simp

theorem allocAll_read_old (ds : List EntryDict) (st : Store) {b : Nat}
    (h : b < st.dicts.length) : ((allocAll st ds).1).read b = st.read b := by
  show ((allocAll st ds).1).dicts[b]? = st.dicts[b]?
  rw [allocAll_dicts]
  rw [List.getElem?_append]
  rw [if_pos h]

theorem allocAll_refs_fresh (ds : List EntryDict) (st : Store) :
    ∀ r ∈ (allocAll st ds).2, st.dicts.length ≤ r := by
  intro r hr
  rw [allocAll_refs] at hr
  obtain ⟨i, _, hi⟩ := List.mem_range'.mp hr
  omega

theorem allocAll_refs_nodup (ds : List EntryDict) (st : Store) :
    ((allocAll st ds).2).Nodup := by
  rw [allocAll_refs]
  exact List.nodup_range' _ _

theorem readAll_allocAll (ds : List EntryDict) :
    ∀ st : Store, readAll (allocAll st ds).1 (allocAll st ds).2 = some ds := by
  induction ds with
  | nil => intro st; rfl
  | cons d rest ih =>
    intro st
    show (do
      let d' ← ((allocAll ⟨st.dicts ++ [d]⟩ rest).1).read st.dicts.length
      let ds' ← readAll (allocAll ⟨st.dicts ++ [d]⟩ rest).1 (allocAll ⟨st.dicts ++ [d]⟩ rest).2
      pure (d' :: ds') : Option (List EntryDict)) = some (d :: rest)
    have h1 : ((allocAll ⟨st.dicts ++ [d]⟩ rest).1).read st.dicts.length = some d := by
      show ((allocAll ⟨st.dicts ++ [d]⟩ rest).1).dicts[st.dicts.length]? = some d
      rw [allocAll_dicts]
      rw [List.append_assoc]
      rw [List.getElem?_append_right (Nat.le_refl _)]
      simp
    rw [h1, ih ⟨st.dicts ++ [d]⟩]
    rfl

/-- One heap-level NLU fold step: dereference the entry, pop its `name`
(writing the popped dict back to the heap cell — the in-place mutation of
`component.pop`), and run the pure step logic on the read value. -/
def nluStepH (reg : String → Option ComponentClass) (ns : Option String) (op : Bool)
    (i : Nat) (st : Store) (g : Schema) (last : String) (a : Nat) :
    Option (Store × Schema × String) := do
  let component ← st.read a
  let (_, component') ← dictPop component "name"
  let st' := st.write a component'
  let (g', last') ← nluStep reg ns op i g last component
  pure (st', g', last')

/-- The heap-level NLU pipeline fold. -/
def nluFoldH (reg : String → Option ComponentClass) (ns : Option String) (op : Bool) :
    Nat → Store → Schema → String → List Nat → Option (Store × Schema × String)
  | _, st, g, last, [] => some (st, g, last)
  | i, st, g, last, a :: as => do
    let (st', g', last') ← nluStepH reg ns op i st g last a
    nluFoldH reg ns op (i + 1) st' g' last' as

/-- Heap-level `nlu_config_to_train_graph_schema`: dereference the
config's pipeline entries, deep-copy them into fresh cells (line 122) and
fold over the copies. -/
def nlu_config_to_train_graph_schema_heap (reg : String → Option ComponentClass)
    (project : String) (st : Store) (config : ConfigRefs)
    (component_namespace : Option String) (input_task : Option String)
    (only_process : Bool) : Option (Store × Schema × String) := do
  let nlu_pipeline ← readAll st config.pipeline
  let (st1, copyRefs) := allocAll st nlu_pipeline
  let (st2, nlu_train_graph, last_component_out) ←
    nluFoldH reg component_namespace only_process 0 st1
      (nluInit project input_task).1 (nluInit project input_task).2 copyRefs
  pure (st2, fill_defaults nlu_train_graph, last_component_out)

/-- One heap-level policy fold step (the `policy.pop("name")` mutation
plus the pure step logic). -/
def policyStepH (polReg : String → Option PolicyClass) (i : Nat) (st : Store)
    (acc : Schema × List String × Bool) (a : Nat) :
    Option (Store × (Schema × List String × Bool)) := do
  let policy ← st.read a
  let (_, policy') ← dictPop policy "name"
  let st' := st.write a policy'
  let acc' ← policyStep polReg i acc policy
  pure (st', acc')

/-- The heap-level policy fold. -/
def policyFoldH (polReg : String → Option PolicyClass) :
    Nat → Store → (Schema × List String × Bool) → List Nat →
    Option (Store × (Schema × List String × Bool))
  | _, st, acc, [] => some (st, acc)
  | i, st, acc, a :: as => do
    let (st', acc') ← policyStepH polReg i st acc a
    policyFoldH polReg (i + 1) st' acc' as

/-- Heap-level `core_config_to_train_graph_schema`: dereference and
deep-copy the policy entries (line 178), fold over the copies, and on E2E
hand the *original* config object to the heap-level NLU sub-compile
(line 235), which deep-copies the pipeline entries itself. -/
def core_config_to_train_graph_schema_heap (reg : String → Option ComponentClass)
    (polReg : String → Option PolicyClass) (project : String) (st : Store)
    (config : ConfigRefs) : Option (Store × Schema × List String) := do
  let policies ← readAll st config.policies
  let (st1, copyRefs) := allocAll st policies
  let (st2, acc) ← policyFoldH polReg 0 st1 (coreBase project, [], false) copyRefs
  let (core_train_graph, policy_names, e2e) := acc
  if e2e then do
    let (st3, nlu_train_graph_schema, nlu_out) ←
      nlu_config_to_train_graph_schema_heap reg project st2 config (some "core")
        (some "convert_stories_for_nlu") true
    pure (st3,
      fill_defaults (setKey
        (schemaUpdate (setKey core_train_graph "convert_stories_for_nlu" convertStoriesTask)
          nlu_train_graph_schema)
        "create_e2e_lookup" (createE2ELookupTask nlu_out)),
      policy_names)
  else
    pure (st2, fill_defaults core_train_graph, policy_names)

theorem readAll_cons {st : Store} {a : Nat} {as : List Nat} {ds : List EntryDict}
    (h : readAll st (a :: as) = some ds) :
    ∃ d ds', st.read a = some d ∧ readAll st as = some ds' ∧ ds = d :: ds' := by
  unfold readAll at h
  cases hr : st.read a with
  | none => rw [hr] at h; simp at h
  | some d =>
    rw [hr] at h
    simp only [Option.bind_eq_bind, Option.some_bind] at h
    cases hrs : readAll st as with
    | none => rw [hrs] at h; simp at h
    | some ds' =>
      rw [hrs] at h
      simp only [Option.some_bind] at h
      exact ⟨d, ds', rfl, rfl, (Option.some.inj h).symm⟩

theorem nluStepH_spec {reg : String → Option ComponentClass} {ns : Option String}
    {op : Bool} {i : Nat} {st : Store} {g : Schema} {last : String} {a : Nat}
    {st' : Store} {g' : Schema} {l' : String}
    (h : nluStepH reg ns op i st g last a = some (st', g', l')) :
    ∃ d nm d', st.read a = some d ∧ dictPop d "name" = some (nm, d')
      ∧ st' = st.write a d' ∧ nluStep reg ns op i g last d = some (g', l') := by
  unfold nluStepH at h
  cases hr : st.read a with
  | none => rw [hr] at h; simp at h
  | some d =>
    rw [hr] at h
    simp only [Option.bind_eq_bind, Option.some_bind] at h
    cases hp : dictPop d "name" with
    | none => rw [hp] at h; simp at h
    | some p =>
      obtain ⟨nm, d'⟩ := p
      rw [hp] at h
      simp only [Option.some_bind] at h
      cases hn : nluStep reg ns op i g last d with
      | none => rw [hn] at h; simp at h
      | some q =>
        obtain ⟨g1, l1⟩ := q
        rw [hn] at h
        simp only [Option.some_bind, Option.pure_def, Option.some.injEq,
          Prod.mk.injEq] at h
        exact ⟨d, nm, d', rfl, hp, h.1.symm, by rw [hn, h.2.1, h.2.2]⟩

theorem nluStepH_intro {reg : String → Option ComponentClass} {ns : Option String}
    {op : Bool} {i : Nat} (st : Store) (g : Schema) (last : String) (a : Nat)
    {d : EntryDict} {nm : String} {d' : EntryDict} {g' : Schema} {l' : String}
    (hr : st.read a = some d) (hp : dictPop d "name" = some (nm, d'))
    (hn : nluStep reg ns op i g last d = some (g', l')) :
    nluStepH reg ns op i st g last a = some (st.write a d', g', l') := by
  unfold nluStepH
  rw [hr]
  simp only [Option.bind_eq_bind, Option.some_bind]
  rw [hp]
  simp only [Option.some_bind]
  rw [hn]
  rfl

theorem nluFoldH_frame {reg : String → Option ComponentClass} {ns : Option String}
    {op : Bool} (as : List Nat) :
    ∀ (i : Nat) (st : Store) (g : Schema) (last : String) (st' : Store) (g' : Schema)
      (l' : String), nluFoldH reg ns op i st g last as = some (st', g', l') →
      (∀ b, b ∉ as → st'.read b = st.read b) ∧ st'.dicts.length = st.dicts.length := by
  induction as with
  | nil =>
    intro i st g last st' g' l' h
    unfold nluFoldH at h
    simp only [Option.some.injEq, Prod.mk.injEq] at h
    obtain ⟨h1, _, _⟩ := h
    subst h1
    exact ⟨fun b _ => rfl, rfl⟩
  | cons a rest ih =>
    intro i st g last st' g' l' h
    unfold nluFoldH at h
    cases hs : nluStepH reg ns op i st g last a with
    | none => rw [hs] at h; simp at h
    | some r =>
      obtain ⟨st1, g1, l1⟩ := r
      rw [hs] at h
      simp only [Option.bind_eq_bind, Option.some_bind] at h
      obtain ⟨d, nm, d', hrd, hp, hw, hn⟩ := nluStepH_spec hs
      obtain ⟨hframe, hlen⟩ := ih (i + 1) st1 g1 l1 st' g' l' h
      constructor
      · intro b hb
        have hba : b ≠ a := fun he => hb (he ▸ List.mem_cons_self _ _)
        have hbr : b ∉ rest := fun hm => hb (List.mem_cons_of_mem _ hm)
        rw [hframe b hbr, hw]
        exact Store.read_write_ne st d' hba
      · rw [hlen, hw]
        exact Store.length_write st a d'

theorem nluFoldH_corr {reg : String → Option ComponentClass} {ns : Option String}
    {op : Bool} (as : List Nat) :
    ∀ (ds : List EntryDict) (i : Nat) (st : Store) (g : Schema) (last : String)
      (st' : Store) (g' : Schema) (l' : String),
      as.Nodup → readAll st as = some ds →
      nluFoldH reg ns op i st g last as = some (st', g', l') →
      nluFold reg ns op i g last ds = some (g', l') := by
  induction as with
  | nil =>
    intro ds i st g last st' g' l' _ hread h
    have hds : ([] : List EntryDict) = ds := Option.some.inj hread
    subst hds
    unfold nluFoldH at h
    simp only [Option.some.injEq, Prod.mk.injEq] at h
    rw [show nluFold reg ns op i g last [] = some (g, last) from rfl, h.2.1, h.2.2]
  | cons a rest ih =>
    intro ds i st g last st' g' l' hnd hread h
    obtain ⟨d, ds', hrd, hrs, hds⟩ := readAll_cons hread
    subst hds
    unfold nluFoldH at h
    cases hs : nluStepH reg ns op i st g last a with
    | none => rw [hs] at h; simp at h
    | some r =>
      obtain ⟨st1, g1, l1⟩ := r
      rw [hs] at h
      simp only [Option.bind_eq_bind, Option.some_bind] at h
      obtain ⟨d0, nm, d0', hrd0, hp, hw, hn⟩ := nluStepH_spec hs
      rw [hrd0] at hrd
      have hd : d0 = d := Option.some.inj hrd
      subst hd
      have hna : a ∉ rest := (List.nodup_cons.mp hnd).1
      have hrs1 : readAll st1 rest = some ds' := by
        rw [hw]
        rw [readAll_congr rest
          (fun b hb => @Store.read_write_ne st a b d0' (fun he => hna (he ▸ hb)))]
        exact hrs
      have htail := ih ds' (i + 1) st1 g1 l1 st' g' l' (List.nodup_cons.mp hnd).2 hrs1 h
      unfold nluFold
      rw [hn]
      simp only [Option.bind_eq_bind, Option.some_bind]
      exact htail

theorem nluFoldH_complete {reg : String → Option ComponentClass} {ns : Option String}
    {op : Bool} (as : List Nat) :
    ∀ (ds : List EntryDict) (i : Nat) (st : Store) (g : Schema) (last : String)
      (g' : Schema) (l' : String),
      as.Nodup → readAll st as = some ds →
      nluFold reg ns op i g last ds = some (g', l') →
      ∃ st', nluFoldH reg ns op i st g last as = some (st', g', l') := by
  induction as with
  | nil =>
    intro ds i st g last g' l' _ hread h
    have hds : ([] : List EntryDict) = ds := Option.some.inj hread
    subst hds
    replace h : some (g, last) = some (g', l') := h
    simp only [Option.some.injEq, Prod.mk.injEq] at h
    exact ⟨st, by rw [show nluFoldH reg ns op i st g last [] = some (st, g, last) from rfl,
      h.1, h.2]⟩
  | cons a rest ih =>
    intro ds i st g last g' l' hnd hread h
    obtain ⟨d, ds', hrd, hrs, hds⟩ := readAll_cons hread
    subst hds
    unfold nluFold at h
    cases hn : nluStep reg ns op i g last d with
    | none => rw [hn] at h; simp at h
    | some q =>
      obtain ⟨g1, l1⟩ := q
      rw [hn] at h
      simp only [Option.bind_eq_bind, Option.some_bind] at h
      cases hp : dictPop d "name" with
      | none =>
        exfalso
        unfold nluStep at hn
        rw [hp] at hn
        simp at hn
      | some p =>
        obtain ⟨nm, d'⟩ := p
        have hstep := nluStepH_intro st g last a hrd hp hn
        have hna : a ∉ rest := (List.nodup_cons.mp hnd).1
        have hrs1 : readAll (st.write a d') rest = some ds' := by
          rw [readAll_congr rest
            (fun b hb => @Store.read_write_ne st a b d' (fun he => hna (he ▸ hb)))]
          exact hrs
        obtain ⟨stf, hf⟩ :=
          ih ds' (i + 1) (st.write a d') g1 l1 g' l' (List.nodup_cons.mp hnd).2 hrs1 h
        refine ⟨stf, ?_⟩
        unfold nluFoldH
        rw [hstep]
        simp only [Option.bind_eq_bind, Option.some_bind]
        exact hf

theorem nluHeap_spec {reg : String → Option ComponentClass} {project : String}
    {st : Store} {config : ConfigRefs} {ns it : Option String} {op : Bool}
    {ds : List EntryDict} {st' : Store} {g : Schema} {l : String}
    (hread : readAll st config.pipeline = some ds)
    (h : nlu_config_to_train_graph_schema_heap reg project st config ns it op
      = some (st', g, l)) :
    nlu_config_to_train_graph_schema reg project ⟨ds, []⟩ ns it op = some (g, l)
    ∧ (∀ b, b < st.dicts.length → st'.read b = st.read b)
    ∧ st'.dicts.length = st.dicts.length + ds.length := by
  unfold nlu_config_to_train_graph_schema_heap at h
  rw [hread] at h
  simp only [Option.bind_eq_bind, Option.some_bind] at h
  cases hA : allocAll st ds with
  | mk st1 refs =>
    rw [hA] at h
    have hnd : refs.Nodup := by
      have := allocAll_refs_nodup ds st; rw [hA] at this; exact this
    have hra : readAll st1 refs = some ds := by
      have := readAll_allocAll ds st; rw [hA] at this; exact this
    have hfresh : ∀ r ∈ refs, st.dicts.length ≤ r := by
      have := allocAll_refs_fresh ds st; rw [hA] at this; exact this
    have hold : ∀ b, b < st.dicts.length → st1.read b = st.read b := by
      intro b hb
      have := allocAll_read_old ds st hb; rw [hA] at this; exact this
    have hlen1 : st1.dicts.length = st.dicts.length + ds.length := by
      have := allocAll_length ds st; rw [hA] at this; exact this
    cases hf : nluFoldH reg ns op 0 st1 (nluInit project it).1 (nluInit project it).2
        refs with
    | none => rw [hf] at h; simp at h
    | some r =>
      obtain ⟨st2, g2, l2⟩ := r
      rw [hf] at h
      simp only [Option.some_bind, Option.pure_def, Option.some.injEq,
        Prod.mk.injEq] at h
      obtain ⟨hst, hg, hl⟩ := h
      obtain ⟨hframe, hlen2⟩ := nluFoldH_frame refs 0 st1 (nluInit project it).1
        (nluInit project it).2 st2 g2 l2 hf
      have hcorr := nluFoldH_corr refs ds 0 st1 (nluInit project it).1
        (nluInit project it).2 st2 g2 l2 hnd hra hf
      refine ⟨?_, ?_, ?_⟩
      · rw [show nlu_config_to_train_graph_schema reg project ⟨ds, []⟩ ns it op
            = (match nluFold reg ns op 0 (nluInit project it).1 (nluInit project it).2 ds
               with
               | some (a, b) => some (fill_defaults a, b)
               | none => none) from rfl, hcorr]
        show some (fill_defaults g2, l2) = some (g, l)
        rw [hg, hl]
      · intro b hb
        rw [← hst]
        have hbr : b ∉ refs := fun hm => absurd hb (Nat.not_lt.mpr (hfresh b hm))
        rw [hframe b hbr]
        exact hold b hb
      · rw [← hst, hlen2, hlen1]

theorem nluHeap_complete {reg : String → Option ComponentClass} {project : String}
    {st : Store} {config : ConfigRefs} {ns it : Option String} {op : Bool}
    {ds : List EntryDict} {g : Schema} {l : String}
    (hread : readAll st config.pipeline = some ds)
    (h : nlu_config_to_train_graph_schema reg project ⟨ds, []⟩ ns it op = some (g, l)) :
    ∃ st', nlu_config_to_train_graph_schema_heap reg project st config ns it op
      = some (st', g, l) := by
  replace h : (match nluFold reg ns op 0 (nluInit project it).1 (nluInit project it).2 ds
      with
      | some (a, b) => some (fill_defaults a, b)
      | none => none) = some (g, l) := h
  cases hfold : nluFold reg ns op 0 (nluInit project it).1 (nluInit project it).2 ds with
  | none => rw [hfold] at h; simp at h
  | some q =>
    obtain ⟨g2, l2⟩ := q
    rw [hfold] at h
    simp only [Option.some.injEq, Prod.mk.injEq] at h
    cases hA : allocAll st ds with
    | mk st1 refs =>
      have hnd : refs.Nodup := by
        have := allocAll_refs_nodup ds st; rw [hA] at this; exact this
      have hra : readAll st1 refs = some ds := by
        have := readAll_allocAll ds st; rw [hA] at this; exact this
      obtain ⟨st2, hf⟩ := nluFoldH_complete refs ds 0 st1 (nluInit project it).1
        (nluInit project it).2 g2 l2 hnd hra hfold
      refine ⟨st2, ?_⟩
      unfold nlu_config_to_train_graph_schema_heap
      rw [hread]
      simp only [Option.bind_eq_bind, Option.some_bind]
      rw [hA]
      simp only [hf, Option.some_bind, Option.pure_def, Option.some.injEq,
        Prod.mk.injEq]
      exact ⟨trivial, h.1, h.2⟩

theorem policyStepH_spec {polReg : String → Option PolicyClass} {i : Nat} {st : Store}
    {acc : Schema × List String × Bool} {a : Nat} {st' : Store}
    {acc' : Schema × List String × Bool}
    (h : policyStepH polReg i st acc a = some (st', acc')) :
    ∃ d nm d', st.read a = some d ∧ dictPop d "name" = some (nm, d')
      ∧ st' = st.write a d' ∧ policyStep polReg i acc d = some acc' := by
  unfold policyStepH at h
  cases hr : st.read a with
  | none => rw [hr] at h; simp at h
  | some d =>
    rw [hr] at h
    simp only [Option.bind_eq_bind, Option.some_bind] at h
    cases hp : dictPop d "name" with
    | none => rw [hp] at h; simp at h
    | some p =>
      obtain ⟨nm, d'⟩ := p
      rw [hp] at h
      simp only [Option.some_bind] at h
      cases hn : policyStep polReg i acc d with
      | none => rw [hn] at h; simp at h
      | some q =>
        rw [hn] at h
        simp only [Option.some_bind, Option.pure_def, Option.some.injEq,
          Prod.mk.injEq] at h
        exact ⟨d, nm, d', rfl, hp, h.1.symm, by rw [hn, h.2]⟩

theorem policyStepH_intro {polReg : String → Option PolicyClass} {i : Nat} (st : Store)
    (acc : Schema × List String × Bool) (a : Nat) {d : EntryDict} {nm : String}
    {d' : EntryDict} {acc' : Schema × List String × Bool}
    (hr : st.read a = some d) (hp : dictPop d "name" = some (nm, d'))
    (hn : policyStep polReg i acc d = some acc') :
    policyStepH polReg i st acc a = some (st.write a d', acc') := by
  unfold policyStepH
  rw [hr]
  simp only [Option.bind_eq_bind, Option.some_bind]
  rw [hp]
  simp only [Option.some_bind]
  rw [hn]
  rfl

theorem policyFoldH_frame {polReg : String → Option PolicyClass} (as : List Nat) :
    ∀ (i : Nat) (st : Store) (acc : Schema × List String × Bool) (st' : Store)
      (acc' : Schema × List String × Bool),
      policyFoldH polReg i st acc as = some (st', acc') →
      (∀ b, b ∉ as → st'.read b = st.read b) ∧ st'.dicts.length = st.dicts.length := by
  induction as with
  | nil =>
    intro i st acc st' acc' h
    unfold policyFoldH at h
    simp only [Option.some.injEq, Prod.mk.injEq] at h
    obtain ⟨h1, _⟩ := h
    subst h1
    exact ⟨fun b _ => rfl, rfl⟩
  | cons a rest ih =>
    intro i st acc st' acc' h
    unfold policyFoldH at h
    cases hs : policyStepH polReg i st acc a with
    | none => rw [hs] at h; simp at h
    | some r =>
      obtain ⟨st1, acc1⟩ := r
      rw [hs] at h
      simp only [Option.bind_eq_bind, Option.some_bind] at h
      obtain ⟨d, nm, d', hrd, hp, hw, hn⟩ := policyStepH_spec hs
      obtain ⟨hframe, hlen⟩ := ih (i + 1) st1 acc1 st' acc' h
      constructor
      · intro b hb
        have hba : b ≠ a := fun he => hb (he ▸ List.mem_cons_self _ _)
        have hbr : b ∉ rest := fun hm => hb (List.mem_cons_of_mem _ hm)
        rw [hframe b hbr, hw]
        exact Store.read_write_ne st d' hba
      · rw [hlen, hw]
        exact Store.length_write st a d'

theorem policyFoldH_corr {polReg : String → Option PolicyClass} (as : List Nat) :
    ∀ (ds : List EntryDict) (i : Nat) (st : Store) (acc : Schema × List String × Bool)
      (st' : Store) (acc' : Schema × List String × Bool),
      as.Nodup → readAll st as = some ds →
      policyFoldH polReg i st acc as = some (st', acc') →
      policyFold polReg i acc ds = some acc' := by
  induction as with
  | nil =>
    intro ds i st acc st' acc' _ hread h
    have hds : ([] : List EntryDict) = ds := Option.some.inj hread
    subst hds
    unfold policyFoldH at h
    simp only [Option.some.injEq, Prod.mk.injEq] at h
    rw [show policyFold polReg i acc [] = some acc from rfl, h.2]
  | cons a rest ih =>
    intro ds i st acc st' acc' hnd hread h
    obtain ⟨d, ds', hrd, hrs, hds⟩ := readAll_cons hread
    subst hds
    unfold policyFoldH at h
    cases hs : policyStepH polReg i st acc a with
    | none => rw [hs] at h; simp at h
    | some r =>
      obtain ⟨st1, acc1⟩ := r
      rw [hs] at h
      simp only [Option.bind_eq_bind, Option.some_bind] at h
      obtain ⟨d0, nm, d0', hrd0, hp, hw, hn⟩ := policyStepH_spec hs
      rw [hrd0] at hrd
      have hd : d0 = d := Option.some.inj hrd
      subst hd
      have hna : a ∉ rest := (List.nodup_cons.mp hnd).1
      have hrs1 : readAll st1 rest = some ds' := by
        rw [hw]
        rw [readAll_congr rest
          (fun b hb => @Store.read_write_ne st a b d0' (fun he => hna (he ▸ hb)))]
        exact hrs
      have htail := ih ds' (i + 1) st1 acc1 st' acc' (List.nodup_cons.mp hnd).2 hrs1 h
      unfold policyFold
      rw [hn]
      simp only [Option.bind_eq_bind, Option.some_bind]
      exact htail

theorem policyFoldH_complete {polReg : String → Option PolicyClass} (as : List Nat) :
    ∀ (ds : List EntryDict) (i : Nat) (st : Store) (acc : Schema × List String × Bool)
      (acc' : Schema × List String × Bool),
      as.Nodup → readAll st as = some ds →
      policyFold polReg i acc ds = some acc' →
      ∃ st', policyFoldH polReg i st acc as = some (st', acc') := by
  induction as with
  | nil =>
    intro ds i st acc acc' _ hread h
    have hds : ([] : List EntryDict) = ds := Option.some.inj hread
    subst hds
    replace h : some acc = some acc' := h
    exact ⟨st, by rw [show policyFoldH polReg i st acc [] = some (st, acc) from rfl,
      Option.some.inj h]⟩
  | cons a rest ih =>
    intro ds i st acc acc' hnd hread h
    obtain ⟨d, ds', hrd, hrs, hds⟩ := readAll_cons hread
    subst hds
    unfold policyFold at h
    cases hn : policyStep polReg i acc d with
    | none => rw [hn] at h; simp at h
    | some acc1 =>
      rw [hn] at h
      simp only [Option.bind_eq_bind, Option.some_bind] at h
      cases hp : dictPop d "name" with
      | none =>
        exfalso
        unfold policyStep at hn
        rw [hp] at hn
        simp at hn
      | some p =>
        obtain ⟨nm, d'⟩ := p
        have hstep := policyStepH_intro st acc a hrd hp hn
        have hna : a ∉ rest := (List.nodup_cons.mp hnd).1
        have hrs1 : readAll (st.write a d') rest = some ds' := by
          rw [readAll_congr rest
            (fun b hb => @Store.read_write_ne st a b d' (fun he => hna (he ▸ hb)))]
          exact hrs
        obtain ⟨stf, hf⟩ :=
          ih ds' (i + 1) (st.write a d') acc1 acc' (List.nodup_cons.mp hnd).2 hrs1 h
        refine ⟨stf, ?_⟩
        unfold policyFoldH
        rw [hstep]
        simp only [Option.bind_eq_bind, Option.some_bind]
        exact hf

theorem nlu_pipeline_only (reg : String → Option ComponentClass) (project : String)
    (ds ps ps' : List EntryDict) (ns it : Option String) (op : Bool) :
    nlu_config_to_train_graph_schema reg project ⟨ds, ps⟩ ns it op
      = nlu_config_to_train_graph_schema reg project ⟨ds, ps'⟩ ns it op := rfl

theorem coreHeap_spec {reg : String → Option ComponentClass}
    {polReg : String → Option PolicyClass} {project : String} {st : Store}
    {config : ConfigRefs} {ds ps : List EntryDict} {st' : Store} {g : Schema}
    {outs : List String}
    (hpipe : readAll st config.pipeline = some ds)
    (hpol : readAll st config.policies = some ps)
    (h : core_config_to_train_graph_schema_heap reg polReg project st config
      = some (st', g, outs)) :
    core_config_to_train_graph_schema reg polReg project ⟨ds, ps⟩ = some (g, outs)
    ∧ (∀ b, b < st.dicts.length → st'.read b = st.read b)
    ∧ st.dicts.length ≤ st'.dicts.length := by
  unfold core_config_to_train_graph_schema_heap at h
  rw [hpol] at h
  simp only [Option.bind_eq_bind, Option.some_bind] at h
  cases hA : allocAll st ps with
  | mk st1 refs =>
    rw [hA] at h
    have hnd : refs.Nodup := by
      have := allocAll_refs_nodup ps st; rw [hA] at this; exact this
    have hra : readAll st1 refs = some ps := by
      have := readAll_allocAll ps st; rw [hA] at this; exact this
    have hfresh : ∀ r ∈ refs, st.dicts.length ≤ r := by
      have := allocAll_refs_fresh ps st; rw [hA] at this; exact this
    have hold : ∀ b, b < st.dicts.length → st1.read b = st.read b := by
      intro b hb
      have := allocAll_read_old ps st hb; rw [hA] at this; exact this
    have hlen1 : st1.dicts.length = st.dicts.length + ps.length := by
      have := allocAll_length ps st; rw [hA] at this; exact this
    cases hfold : policyFoldH polReg 0 st1 (coreBase project, [], false) refs with
    | none => rw [hfold] at h; simp at h
    | some r =>
      obtain ⟨st2, core_g, pnames, e2e⟩ := r
      rw [hfold] at h
      simp only [Option.some_bind] at h
      have hcorr := policyFoldH_corr refs ps 0 st1 (coreBase project, [], false) st2
        (core_g, pnames, e2e) hnd hra hfold
      obtain ⟨hframe2, hlen2⟩ := policyFoldH_frame refs 0 st1
        (coreBase project, [], false) st2 (core_g, pnames, e2e) hfold
      have hold2 : ∀ b, b < st.dicts.length → st2.read b = st.read b := by
        intro b hb
        have hbr : b ∉ refs := fun hm => absurd hb (Nat.not_lt.mpr (hfresh b hm))
        rw [hframe2 b hbr]
        exact hold b hb
      have hlelen2 : st.dicts.length ≤ st2.dicts.length := by
        rw [hlen2, hlen1]; omega
      cases e2e with
      | false =>
        replace h : some (st2, fill_defaults core_g, pnames) = some (st', g, outs) := h
        simp only [Option.some.injEq, Prod.mk.injEq] at h
        obtain ⟨hst, hg, houts⟩ := h
        refine ⟨?_, ?_, ?_⟩
        · rw [show core_config_to_train_graph_schema reg polReg project ⟨ds, ps⟩
              = (match policyFold polReg 0 (coreBase project, [], false) ps with
                 | some (core_train_graph, policy_names, e2e) =>
                   (match coreMaybeE2E reg project ⟨ds, ps⟩ e2e core_train_graph with
                    | some g2 => some (fill_defaults g2, policy_names)
                    | none => none)
                 | none => none) from rfl, hcorr]
          show (match coreMaybeE2E reg project ⟨ds, ps⟩ false core_g with
                | some g2 => some (fill_defaults g2, pnames)
                | none => none) = some (g, outs)
          rw [show coreMaybeE2E reg project ⟨ds, ps⟩ false core_g = some core_g from rfl]
          show some (fill_defaults core_g, pnames) = some (g, outs)
          rw [hg, houts]
        · intro b hb
          rw [← hst]
          exact hold2 b hb
        · rw [← hst]
          exact hlelen2
      | true =>
        rw [if_pos rfl] at h
        cases hnl : nlu_config_to_train_graph_schema_heap reg project st2 config
            (some "core") (some "convert_stories_for_nlu") true with
        | none => rw [hnl] at h; simp at h
        | some rn =>
          obtain ⟨st3, nlu_g, nlu_out⟩ := rn
          rw [hnl] at h
          simp only [Option.some_bind, Option.pure_def, Option.some.injEq,
            Prod.mk.injEq] at h
          obtain ⟨hst, hg, houts⟩ := h
          have hpipe2 : readAll st2 config.pipeline = some ds := by
            rw [readAll_congr config.pipeline
              (fun b hb => hold2 b (readAll_valid hpipe b hb))]
            exact hpipe
          obtain ⟨hpure_nlu, hframe3, hlen3⟩ := nluHeap_spec hpipe2 hnl
          refine ⟨?_, ?_, ?_⟩
          · rw [show core_config_to_train_graph_schema reg polReg project ⟨ds, ps⟩
                = (match policyFold polReg 0 (coreBase project, [], false) ps with
                   | some (core_train_graph, policy_names, e2e) =>
                     (match coreMaybeE2E reg project ⟨ds, ps⟩ e2e core_train_graph with
                      | some g2 => some (fill_defaults g2, policy_names)
                      | none => none)
                   | none => none) from rfl, hcorr]
            show (match coreMaybeE2E reg project ⟨ds, ps⟩ true core_g with
                  | some g2 => some (fill_defaults g2, pnames)
                  | none => none) = some (g, outs)
            have hC : coreMaybeE2E reg project ⟨ds, ps⟩ true core_g
                = some (setKey
                    (schemaUpdate (setKey core_g "convert_stories_for_nlu"
                      convertStoriesTask) nlu_g)
                    "create_e2e_lookup" (createE2ELookupTask nlu_out)) := by
              unfold coreMaybeE2E
              rw [if_pos rfl]
              rw [nlu_pipeline_only reg project ds ps [] (some "core")
                (some "convert_stories_for_nlu") true]
              rw [hpure_nlu]
            rw [hC]
            show some (fill_defaults (setKey
              (schemaUpdate (setKey core_g "convert_stories_for_nlu" convertStoriesTask)
                nlu_g) "create_e2e_lookup" (createE2ELookupTask nlu_out)), pnames)
              = some (g, outs)
            rw [hg, houts]
          · intro b hb
            rw [← hst]
            rw [hframe3 b (Nat.lt_of_lt_of_le hb hlelen2)]
            exact hold2 b hb
          · rw [← hst]
            rw [hlen3]
            omega

theorem coreHeap_complete {reg : String → Option ComponentClass}
    {polReg : String → Option PolicyClass} {project : String} {st : Store}
    {config : ConfigRefs} {ds ps : List EntryDict} {g : Schema} {outs : List String}
    (hpipe : readAll st config.pipeline = some ds)
    (hpol : readAll st config.policies = some ps)
    (h : core_config_to_train_graph_schema reg polReg project ⟨ds, ps⟩ = some (g, outs)) :
    ∃ st', core_config_to_train_graph_schema_heap reg polReg project st config
      = some (st', g, outs) := by
  replace h : (match policyFold polReg 0 (coreBase project, [], false) ps with
      | some (core_train_graph, policy_names, e2e) =>
        (match coreMaybeE2E reg project ⟨ds, ps⟩ e2e core_train_graph with
         | some g2 => some (fill_defaults g2, policy_names)
         | none => none)
      | none => none) = some (g, outs) := h
  cases hfold : policyFold polReg 0 (coreBase project, [], false) ps with
  | none => rw [hfold] at h; simp at h
  | some acc =>
    obtain ⟨core_g, pnames, e2e⟩ := acc
    rw [hfold] at h
    cases hA : allocAll st ps with
    | mk st1 refs =>
      have hnd : refs.Nodup := by
        have := allocAll_refs_nodup ps st; rw [hA] at this; exact this
      have hra : readAll st1 refs = some ps := by
        have := readAll_allocAll ps st; rw [hA] at this; exact this
      have hfresh : ∀ r ∈ refs, st.dicts.length ≤ r := by
        have := allocAll_refs_fresh ps st; rw [hA] at this; exact this
      have hold : ∀ b, b < st.dicts.length → st1.read b = st.read b := by
        intro b hb
        have := allocAll_read_old ps st hb; rw [hA] at this; exact this
      obtain ⟨st2, hfH⟩ := policyFoldH_complete refs ps 0 st1
        (coreBase project, [], false) (core_g, pnames, e2e) hnd hra hfold
      obtain ⟨hframe2, hlen2⟩ := policyFoldH_frame refs 0 st1
        (coreBase project, [], false) st2 (core_g, pnames, e2e) hfH
      have hold2 : ∀ b, b < st.dicts.length → st2.read b = st.read b := by
        intro b hb
        have hbr : b ∉ refs := fun hm => absurd hb (Nat.not_lt.mpr (hfresh b hm))
        rw [hframe2 b hbr]
        exact hold b hb
      cases e2e with
      | false =>
        replace h : some (fill_defaults core_g, pnames) = some (g, outs) := h
        simp only [Option.some.injEq, Prod.mk.injEq] at h
        obtain ⟨hg, houts⟩ := h
        refine ⟨st2, ?_⟩
        unfold core_config_to_train_graph_schema_heap
        rw [hpol]
        simp only [Option.bind_eq_bind, Option.some_bind]
        rw [hA]
        simp only [hfH, Option.some_bind]
        show some (st2, fill_defaults core_g, pnames) = some (st2, g, outs)
        rw [hg, houts]
      | true =>
        replace h : (match coreMaybeE2E reg project ⟨ds, ps⟩ true core_g with
            | some g2 => some (fill_defaults g2, pnames)
            | none => none) = some (g, outs) := h
        cases hC : coreMaybeE2E reg project ⟨ds, ps⟩ true core_g with
        | none => rw [hC] at h; simp at h
        | some g2 =>
          rw [hC] at h
          replace h : some (fill_defaults g2, pnames) = some (g, outs) := h
          simp only [Option.some.injEq, Prod.mk.injEq] at h
          obtain ⟨hg, houts⟩ := h
          obtain ⟨ng, nout, hpure_nlu, hsub⟩ := coreMaybeE2E_true_spec hC
          have hpipe2 : readAll st2 config.pipeline = some ds := by
            rw [readAll_congr config.pipeline
              (fun b hb => hold2 b (readAll_valid hpipe b hb))]
            exact hpipe
          have hpure_nlu' : nlu_config_to_train_graph_schema reg project ⟨ds, []⟩
              (some "core") (some "convert_stories_for_nlu") true = some (ng, nout) := by
            rw [nlu_pipeline_only reg project ds [] ps (some "core")
              (some "convert_stories_for_nlu") true]
            exact hpure_nlu
          obtain ⟨st3, hnlH⟩ := nluHeap_complete hpipe2 hpure_nlu'
          refine ⟨st3, ?_⟩
          unfold core_config_to_train_graph_schema_heap
          rw [hpol]
          simp only [Option.bind_eq_bind, Option.some_bind]
          rw [hA]
          simp only [hfH, Option.some_bind]
          rw [if_pos trivial]
          simp only [hnlH, Option.bind_eq_bind, Option.some_bind, Option.pure_def]
          show some (st3, fill_defaults (setKey
            (schemaUpdate (setKey core_g "convert_stories_for_nlu" convertStoriesTask)
              ng) "create_e2e_lookup" (createE2ELookupTask nout)), pnames)
            = some (st3, g, outs)
          rw [← hsub, hg, houts]

/-- C9: with the entry dicts rendered as mutable store objects, neither
heap-level compiler mutates any pre-existing object — in particular the
config's pipeline and policy entry dicts keep their original contents,
the `name` keys being popped only from the fresh deep copies — and
re-running the same compiler on the store returned by a run yields the
same schema and the same output name(s). -/
theorem C9_frame_determinism (reg : String → Option ComponentClass)
    (polReg : String → Option PolicyClass) (project : String) (st : Store)
    (config : ConfigRefs) (ns it : Option String) (op : Bool)
    (ds ps : List EntryDict)
    (hpipe : readAll st config.pipeline = some ds)
    (hpol : readAll st config.policies = some ps) :
    (∀ st' g l,
      nlu_config_to_train_graph_schema_heap reg project st config ns it op
        = some (st', g, l) →
      (∀ b, b < st.dicts.length → st'.read b = st.read b)
      ∧ readAll st' config.pipeline = some ds
      ∧ readAll st' config.policies = some ps
      ∧ ∃ st2, nlu_config_to_train_graph_schema_heap reg project st' config ns it op
          = some (st2, g, l))
    ∧ (∀ st' g outs,
      core_config_to_train_graph_schema_heap reg polReg project st config
        = some (st', g, outs) →
      (∀ b, b < st.dicts.length → st'.read b = st.read b)
      ∧ readAll st' config.pipeline = some ds
      ∧ readAll st' config.policies = some ps
      ∧ ∃ st2, core_config_to_train_graph_schema_heap reg polReg project st' config
          = some (st2, g, outs)) := by
  constructor
  · intro st' g l h
    obtain ⟨hpure, hframe, hlen⟩ := nluHeap_spec hpipe h
    have hp2 : readAll st' config.pipeline = some ds := by
      rw [readAll_congr config.pipeline
        (fun b hb => hframe b (readAll_valid hpipe b hb))]
      exact hpipe
    have hp3 : readAll st' config.policies = some ps := by
      rw [readAll_congr config.policies
        (fun b hb => hframe b (readAll_valid hpol b hb))]
      exact hpol
    exact ⟨hframe, hp2, hp3, nluHeap_complete hp2 hpure⟩
  · intro st' g outs h
    obtain ⟨hpure, hframe, hlen⟩ := coreHeap_spec hpipe hpol h
    have hp2 : readAll st' config.pipeline = some ds := by
      rw [readAll_congr config.pipeline
        (fun b hb => hframe b (readAll_valid hpipe b hb))]
      exact hpipe
    have hp3 : readAll st' config.policies = some ps := by
      rw [readAll_congr config.policies
        (fun b hb => hframe b (readAll_valid hpol b hb))]
      exact hpol
    exact ⟨hframe, hp2, hp3, coreHeap_complete hp2 hp3 hpure⟩

/-- A concrete store for exercising the heap model: one pipeline entry dict
(component `T`) at address 0 and one policy entry dict (policy `P2`, which
declares `e2e_features`) at address 1. -/
def c9st : Store := ⟨[[("name", "T")], [("name", "P2")]]⟩

/-- The config-object rendering for the concrete store: the pipeline holds
the reference 0 and the policy list the reference 1. -/
def c9cfg : ConfigRefs := ⟨[0], [1]⟩

/-- Witness for C9: both heap-level compilers succeed on the concrete
store (the Core one through its E2E branch), and the frame/determinism
theorem applies to it with its dereferencing hypotheses discharged by
evaluation. -/
theorem C9_witness :
    (nlu_config_to_train_graph_schema_heap scenarioReg "p" c9st c9cfg
        none none false).isSome = true
    ∧ (core_config_to_train_graph_schema_heap scenarioReg scenarioPolReg "p"
        c9st c9cfg).isSome = true
    ∧ (∀ st' g l,
        nlu_config_to_train_graph_schema_heap scenarioReg "p" c9st c9cfg none none false
          = some (st', g, l) →
        (∀ b, b < c9st.dicts.length → st'.read b = c9st.read b)
        ∧ readAll st' c9cfg.pipeline = some [[("name", "T")]]
        ∧ readAll st' c9cfg.policies = some [[("name", "P2")]]
        ∧ ∃ st2, nlu_config_to_train_graph_schema_heap scenarioReg "p" st' c9cfg
            none none false = some (st2, g, l))
    ∧ (∀ st' g outs,
        core_config_to_train_graph_schema_heap scenarioReg scenarioPolReg "p" c9st c9cfg
          = some (st', g, outs) →
        (∀ b, b < c9st.dicts.length → st'.read b = c9st.read b)
        ∧ readAll st' c9cfg.pipeline = some [[("name", "T")]]
        ∧ readAll st' c9cfg.policies = some [[("name", "P2")]]
        ∧ ∃ st2, core_config_to_train_graph_schema_heap scenarioReg scenarioPolReg "p"
            st' c9cfg = some (st2, g, outs)) :=
  ⟨by decide, by decide,
   (C9_frame_determinism scenarioReg scenarioPolReg "p" c9st c9cfg none none false
     [[("name", "T")]] [[("name", "P2")]] (by decide) (by decide)).1,
   (C9_frame_determinism scenarioReg scenarioPolReg "p" c9st c9cfg none none false
     [[("name", "T")]] [[("name", "P2")]] (by decide) (by decide)).2⟩
